import Mathlib

/-!
Verification of fdm `mail.c`: message buffer, header scanner and editor,
address extractor, envelope trimming, fold points, line iterator and file
locking.

A shallow embedding of `src/mail.c`.  Bytes are natural numbers, a C string is
the list of its bytes before the terminating NUL, and memory reached through a
pointer is the list of bytes from that pointer on; a byte outside the list
reads as 0.  Values of type `size_t` are natural numbers, reduced modulo
`2 ^ 64` where the C arithmetic can wrap.
-/

namespace Fdm

/-! ## Machine integers -/

/-- Largest value of a `size_t` (64-bit). -/
def SIZE_MAX : Nat := 2 ^ 64 - 1

/-- Addition of two `size_t` values. -/
def add64 (a b : Nat) : Nat := (a + b) % 2 ^ 64

/-- Subtraction of two `size_t` values (`b` is at most `2 ^ 64`). -/
def sub64 (a b : Nat) : Nat := (a + 2 ^ 64 - b) % 2 ^ 64

/-- The cast `(size_t) x` of an `ssize_t`. -/
def to_size (x : Int) : Nat := (x % 2 ^ 64).toNat

/-- Outcome of a call that may end the process or loop for ever. -/
inductive Outcome (α : Type) where
  | ret (a : α)
  | fatal
  | hang
deriving DecidableEq, Repr

/-! ## `<ctype.h>` and `<string.h>` in the C locale -/

/-- Bytes of a string literal. -/
def bytes (s : String) : List Nat := s.toList.map Char.toNat

/-- The byte `p[i]`. -/
def rd (p : List Nat) (i : Nat) : Nat := p.getD i 0

/-- The test `isspace(c)`: space, `\t`, `\n`, `\v`, `\f`, `\r`. -/
def isspace (c : Nat) : Bool := c == 32 || (9 ≤ c && c ≤ 13)

/-- The test `isblank(c)`: space or `\t`. -/
def isblank (c : Nat) : Bool := c == 32 || c == 9

/-- The function `tolower(c)`. -/
def tolower (c : Nat) : Nat := if 65 ≤ c ∧ c ≤ 90 then c + 32 else c

/-- The call `memchr(p + start, c, n)`: index (from `p`) of the first byte equal
to `c` among the `n` bytes from `p + start`. -/
def memchr (p : List Nat) (start c : Nat) : Nat → Option Nat
  | 0 => none
  | n + 1 => if rd p start = c then some start else memchr p (start + 1) c n

/-- The call `strncasecmp(s1, s2, n)`: compares at most `n` bytes, ignoring
case, and stops after a NUL. -/
def strncasecmp (s1 s2 : List Nat) : Nat → Int
  | 0 => 0
  | n + 1 =>
    let c1 := tolower (rd s1 0)
    let c2 := tolower (rd s2 0)
    if c1 ≠ c2 then (c1 : Int) - (c2 : Int)
    else if c1 = 0 then 0
    else strncasecmp s1.tail s2.tail n

/-- The call `strncmp(s1, s2, n)`. -/
def strncmp (s1 s2 : List Nat) : Nat → Int
  | 0 => 0
  | n + 1 =>
    let c1 := rd s1 0
    let c2 := rd s2 0
    if c1 ≠ c2 then (c1 : Int) - (c2 : Int)
    else if c1 = 0 then 0
    else strncmp s1.tail s2.tail n

/-- The call `memcpy(b + dst, src, |src|)`; the destination lies inside `b`. -/
def memcpy (b : List Nat) (dst : Nat) (src : List Nat) : List Nat :=
  b.take dst ++ src ++ b.drop (dst + src.length)

/-- The call `memmove(b + dst, b + src, n)`: the source bytes are read before
any byte is written. -/
def memmove (b : List Nat) (dst src n : Nat) : List Nat :=
  memcpy b dst ((b.drop src).take n)

/-! ## The message -/

/-- The fields of `struct mail` used by `mail.c` after `mail_open`: `base` is
the allocation (so `base` and `data` are not NULL), `space` its capacity, `off`
the offset of `data` in `base`, `size` the length of the message, `body` the
offset of the body or `-1`, `wrapped` the array of fold points. -/
structure mail where
  base : List Nat
  space : Nat
  off : Nat
  size : Nat
  body : Int
  wrapped : List Nat
deriving DecidableEq, Repr

/-- The pointer `m->data = m->base + m->off`, as the memory from it on. -/
def mail.data (m : mail) : List Nat := m.base.drop m.off

/-- The message bytes `data[0 .. size)`. -/
def mail.content (m : mail) : List Nat := m.data.take m.size

/-- The invariants of a message: the capacity is allocated, the message lies
inside it, and `body` is `-1` or an offset into the message. -/
def mail.wf (m : mail) : Prop :=
  m.space ≤ m.base.length ∧ m.off + m.size ≤ m.space ∧ m.space ≤ SIZE_MAX ∧
    (m.body = -1 ∨ (0 ≤ m.body ∧ m.body ≤ m.size))

instance (m : mail) : Decidable m.wf := by
  unfold mail.wf; infer_instance

/-! ## `find_header` -/

/-- The end of the header region: `m->body == -1 ? m->size : (size_t) m->body`. -/
def header_end (m : mail) : Nat := if m.body = -1 then m.size else to_size m.body

/-- The search loop of `find_header`: from the line start `ptr`, stop at the
first line that has `:` at `hdrlen - 1` and the name before it; `none` is
`return (NULL)`.  Every pass moves `ptr` forward, so `e` passes are enough. -/
def find_header_scan (d hdr : List Nat) (e : Nat) : Nat → Nat → Option Nat
  | 0, _ => none
  | fuel + 1, ptr =>
    if rd d (ptr + (hdr.length + 1) - 1) ≠ 58 ∨
        strncasecmp (d.drop ptr) hdr (hdr.length + 1 - 1) ≠ 0 then
      match memchr d ptr 10 (e - ptr) with
      | none => none
      | some p =>
        if hdr.length + 1 > e - (p + 1) then none
        else find_header_scan d hdr e fuel (p + 1)
    else some ptr

/-- The loop `while (isspace(*out)) { out++; (*len)--; }` of `find_header`. -/
def strip_space (d : List Nat) : Nat → Nat → Nat → Nat × Nat
  | 0, out, len => (out, len)
  | fuel + 1, out, len =>
    if isspace (rd d out) then strip_space d fuel (out + 1) (sub64 len 1)
    else (out, len)

/-- The function `find_header(m, hdr, &len, value)`: `none` is NULL, and
`some (o, len)` is the pointer `m->data + o` with `*len = len`.  The final test
`len == 0` compares the pointer `len`, which is never NULL. -/
def find_header (m : mail) (hdr : List Nat) (value : Bool) : Option (Nat × Nat) :=
  let hdrlen := hdr.length + 1
  let e := header_end m
  if hdrlen > e then none
  else
    match find_header_scan m.data hdr e e 0 with
    | none => none
    | some ptr =>
      let out := ptr + hdrlen
      let len :=
        match memchr m.data out 10 (e - out) with
        | none => e - out
        | some p => p - out
      if !isspace (rd m.data out) then none
      else if value then some (strip_space m.data (m.data.length + 1) out len)
      else some (out - hdrlen, len + hdrlen)

/-! ## `resize_mail` -/

/-- Modelled from the spec: `shm_realloc(&m->shm, nmemb, size)` is not in
`mail.c`; it reallocates the region to `nmemb * size` bytes, copying the
existing bytes.  The bytes added are zero. -/
def shm_realloc (base : List Nat) (nmemb size : Nat) : List Nat :=
  base ++ List.replicate (nmemb * size - base.length) 0

/-- The loop `while (m->space <= m->off + size)` of `resize_mail`, `target`
being `m->off + size`.  After 64 doublings a 64-bit capacity is 0 and the test
holds for ever, so running out of the 65 passes is `hang`. -/
def resize_loop (target : Nat) : Nat → List Nat → Nat → Outcome (List Nat × Nat)
  | 0, _, _ => .hang
  | fuel + 1, base, space =>
    if space ≤ target then
      resize_loop target fuel (shm_realloc base 2 space) (space * 2 % 2 ^ 64)
    else .ret (base, space)

/-- The function `resize_mail(m, size)`.  The sum `m->off + size` cannot wrap
once the first test has passed. -/
def resize_mail (m : mail) (size : Nat) : Outcome mail :=
  if SIZE_MAX - m.off < size then .fatal
  else
    match resize_loop (m.off + size) 65 m.base m.space with
    | .ret (b, s) => .ret { m with base := b, space := s }
    | .fatal => .fatal
    | .hang => .hang

/-! ## `remove_header` and `insert_header` -/

/-- The function `remove_header(m, hdr)`: the return value and the message
after the call. -/
def remove_header (m : mail) (hdr : List Nat) : Nat × mail :=
  match find_header m hdr false with
  | none => (1, m)
  | some (ptr, len0) =>
    let len := add64 len0 1
    (0, { m with
          base := memmove m.base (m.off + ptr) (m.off + ptr + len)
            (sub64 (sub64 m.size len) ptr)
          size := sub64 m.size len
          body := if m.body ≠ -1 then m.body - len else m.body })

/-- The offset computed at the start of `insert_header`: the start of the
header `before`, or the end of the header block; `none` is `return (1)`. -/
def insert_offset (m : mail) (before : Option (List Nat)) : Option Nat :=
  match before with
  | some b =>
    match find_header m b false with
    | none => none
    | some (ptr, _) => some ptr
  | none =>
    if m.body = -1 then some m.size
    else if m.body < 1 then some 0
    else some (to_size (m.body - 1))

/-- The function `insert_header(m, before, fmt, ...)`, `hdr` being the text
formatted by `xvasprintf`: the return value and the message after the call. -/
def insert_header (m : mail) (before : Option (List Nat)) (hdr : List Nat) :
    Outcome (Nat × mail) :=
  match insert_offset m before with
  | none => .ret (1, m)
  | some off =>
    let hdrlen := hdr.length + 1
    match resize_mail m (add64 m.size hdrlen) with
    | .fatal => .fatal
    | .hang => .hang
    | .ret m1 =>
      let ptr := m1.off + off
      let b1 := memmove m1.base (ptr + hdrlen) ptr (sub64 m1.size off)
      let b2 := memcpy b1 ptr hdr
      let b3 := b2.set (ptr + hdrlen - 1) 10
      .ret (0, { m1 with
                 base := b3
                 size := add64 m1.size hdrlen
                 body := if m1.body ≠ -1 then m1.body + hdrlen else m1.body })

/-! ## `find_address` -/

/-- Modelled from the spec: the macro `isaddr` is not in `mail.c`; the valid
address characters are the RFC822 atom characters (printable ASCII other than
space and the specials `( ) < > @ , ; : \ " . [ ]`), `@` and `.`. -/
def isaddr (c : Nat) : Bool :=
  33 ≤ c && c ≤ 126 &&
    !(c == 40 || c == 41 || c == 60 || c == 62 || c == 44 || c == 59 || c == 58 ||
      c == 92 || c == 34 || c == 91 || c == 93)

/-- The loop `while (off < len && hdr[off] != '"') off++`. -/
def skip_quoted (hdr : List Nat) (len : Nat) : Nat → Nat → Nat
  | 0, off => off
  | fuel + 1, off =>
    if off < len ∧ rd hdr off ≠ 34 then skip_quoted hdr len fuel (off + 1) else off

/-- The loop `for (pos = 0; pos < n; pos++) if (!isaddr(hdr[start + pos])) break`:
the final `pos`. -/
def addr_run (valid : Nat → Bool) (hdr : List Nat) (start : Nat) : Nat → Nat
  | 0 => 0
  | n + 1 => if valid (rd hdr start) then addr_run valid hdr (start + 1) n + 1 else 0

/-- The first loop of `find_address`: `inl (o, alen)` is `return (hdr + o)`
with `*alen = alen` from the `<` case, `inr off` is the value of `off` when the
loop ends.  Every pass moves `off` forward, so `len + 1` passes are enough and
`off` is at least `len` when they run out. -/
def find_address_scan (valid : Nat → Bool) (hdr : List Nat) (len : Nat) :
    Nat → Nat → Sum (Nat × Nat) Nat
  | 0, off => .inr off
  | fuel + 1, off =>
    if off < len then
      if rd hdr off = 34 then
        let off1 := skip_quoted hdr len len (off + 1)
        let off2 := if off1 < len then off1 + 1 else off1
        find_address_scan valid hdr len fuel (off2 + 1)
      else if rd hdr off = 60 then
        let off1 := off + 1
        match memchr hdr off1 62 (len - off1) with
        | none => find_address_scan valid hdr len fuel (off1 + 1)
        | some p =>
          let alen := p - off1
          if addr_run valid hdr off1 alen ≠ alen then
            find_address_scan valid hdr len fuel (off1 + 1)
          else if alen = 0 ∨ memchr hdr off1 64 alen = none then
            find_address_scan valid hdr len fuel (off1 + 1)
          else if rd hdr off1 = 64 ∨ rd hdr (off1 + alen - 1) = 64 then
            find_address_scan valid hdr len fuel (off1 + 1)
          else .inl (off1, alen)
      else find_address_scan valid hdr len fuel (off + 1)
    else .inr off

/-- The function `find_address(hdr, len, &alen)`, over the macro `isaddr`
(`valid`): `hdr` is the memory from the pointer on, the input is its first
`len` bytes; `none` is NULL and `some (o, alen)` is `hdr + o` with
`*alen = alen`. -/
def find_address (valid : Nat → Bool) (hdr : List Nat) (len : Nat) : Option (Nat × Nat) :=
  match find_address_scan valid hdr len (len + 1) 0 with
  | .inl r => some r
  | .inr off =>
    let alen := addr_run valid hdr 0 len
    if alen = 0 ∨ memchr hdr off 64 alen = none then none
    else if rd hdr off = 64 ∨ rd hdr (alen - 1) = 64 then none
    else some (0, alen)

/-! ## `trim_from` -/

/-- The function `trim_from(m)`.  The test `m->data == NULL` is false for a
message that has been opened. -/
def trim_from (m : mail) : mail :=
  if m.size < 5 ∨ strncmp m.data (bytes "From ") 5 ≠ 0 then m
  else
    let len :=
      match memchr m.data 0 10 m.size with
      | none => m.size
      | some p => p + 1
    { m with
      size := m.size - len
      off := m.off + len
      body := if m.body ≠ -1 then m.body - len else m.body }

/-! ## `fill_wrapped` and `set_wrapped` -/

/-- The loop of `fill_wrapped`: `ptr` is the scan position, `w` the array
`m->wrapped` and `n` the `u_int` count.  Every pass moves `ptr` forward and
`ptr` stays at most `size`, so `size + 1` passes are enough. -/
def fill_wrapped_loop (d : List Nat) (size e : Nat) :
    Nat → Nat → List Nat → Nat → List Nat × Nat
  | 0, _, w, n => (w, n)
  | fuel + 1, ptr, w, n =>
    match memchr d ptr 10 (size - ptr) with
    | none => (w, n)
    | some p =>
      let off := p + 1
      if off ≥ e then (w, n)
      else if !isblank (rd d off) then fill_wrapped_loop d size e fuel off w n
      else fill_wrapped_loop d size e fuel off (w ++ [off - 1]) ((n + 1) % 2 ^ 32)

/-- The function `fill_wrapped(m)`: the count returned and the message after
the call; `fatal` when fold points are already recorded. -/
def fill_wrapped (m : mail) : Outcome (Nat × mail) :=
  if m.wrapped ≠ [] then .fatal
  else
    let r := fill_wrapped_loop m.data m.size (header_end m) (m.size + 1) 0 [] 0
    .ret (r.2, { m with wrapped := r.1 })

/-- The function `set_wrapped(m, ch)`. -/
def set_wrapped (m : mail) (ch : Nat) : mail :=
  { m with base := m.wrapped.foldl (fun b w => b.set (m.off + w) ch) m.base }

/-! ## `line_init` and `line_next` -/

/-- The function `line_init(m, &line, &len)`: the pair of `line - m->data` and
`len` after the call. -/
def line_init (m : mail) : Nat × Nat :=
  match memchr m.data 0 10 m.size with
  | none => (0, m.size)
  | some p => (0, (p - 0) + 1)

/-- The function `line_next(m, &line, &len)`, from the pair before the call to
the pair after it; `none` is `*line = NULL`. -/
def line_next (m : mail) (line len : Nat) : Option (Nat × Nat) :=
  if line + len = m.size then none
  else
    match memchr m.data (line + len) 10 (sub64 m.size (line + len)) with
    | none => some (line + len, sub64 m.size (line + len))
    | some p => some (line + len, (p - (line + len)) + 1)

/-- The lines of a traversal: the pair at hand, then `line_next` until it
yields NULL. -/
def line_iter (m : mail) : Nat → Nat × Nat → List (Nat × Nat)
  | 0, _ => []
  | fuel + 1, x =>
    x :: (match line_next m x.1 x.2 with
      | none => []
      | some y => line_iter m fuel y)

/-- The traversal `line_init(m, ...)`, then `line_next(m, ...)` while `line` is
not NULL.  Every line of a non-empty message has at least one byte, so
`size + 1` passes are enough. -/
def lines (m : mail) : List (Nat × Nat) := line_iter m (m.size + 1) (line_init m)

/-- The pairs `L` cut the bytes `d[s .. n)` into lines, in the words of the
specification: the first start is `s`, each next start is the previous start
plus its length, the lengths add up to `n - s`, every length is at least 1,
every line but the last ends with a newline and has no other, and the last
line has no newline before its final byte. -/
def line_partition (d : List Nat) (s n : Nat) (L : List (Nat × Nat)) : Prop :=
  L.head?.map Prod.fst = some s ∧
  List.Chain' (fun a b => b.1 = a.1 + a.2) L ∧
  s + (L.map Prod.snd).sum = n ∧
  (∀ x ∈ L, 1 ≤ x.2) ∧
  (∀ x ∈ L.dropLast, rd d (x.1 + x.2 - 1) = 10 ∧
    ∀ j, x.1 ≤ j → j < x.1 + x.2 - 1 → rd d j ≠ 10) ∧
  (∀ x, L.getLast? = some x → ∀ j, x.1 ≤ j → j < x.1 + x.2 - 1 → rd d j ≠ 10)

/-- The pair `x` is a line of `d[0 .. n)`: it has at least one byte, lies
inside, has no newline before its last byte, and ends with a newline unless
it ends at `n`. -/
def is_line (d : List Nat) (n : Nat) (x : Nat × Nat) : Prop :=
  1 ≤ x.2 ∧ x.1 + x.2 ≤ n ∧ (∀ j, x.1 ≤ j → j < x.1 + x.2 - 1 → rd d j ≠ 10) ∧
    (x.1 + x.2 < n → rd d (x.1 + x.2 - 1) = 10)

/-! ## The fold newlines of the specification -/

/-- The test of a fold newline at offset `i` of a header region that ends at
`e`: `d[i]` is a newline, `i + 1 < e` and `d[i + 1]` is a space or a tab. -/
def is_fold (d : List Nat) (e i : Nat) : Bool :=
  rd d i == 10 && decide (i + 1 < e) && isblank (rd d (i + 1))

/-- The fold newlines of the header region in the words of the specification:
the offsets that pass `is_fold`, in increasing order. -/
def fold_newlines (d : List Nat) (e : Nat) : List Nat :=
  (List.range e).filter (is_fold d e)

/-! ## `openlock` -/

/-- The tests `locks & LOCK_DOTLOCK`, `locks & LOCK_FLOCK` and
`locks & LOCK_FCNTL` of an argument `locks`; the three constants are not in
`mail.c`. -/
structure lockset where
  dotlock : Bool
  flock : Bool
  fcntl : Bool
deriving DecidableEq, Repr

/-- The state `openlock` acts on: the files that exist, the paths registered
for crash-cleanup, the open descriptors and `errno`. -/
structure world where
  files : List (List Nat)
  registry : List (List Nat)
  fds : List Nat
  errno : Nat
deriving DecidableEq, Repr

/-- The answers of the system to the calls of `openlock`: the error of the
exclusive creation of the dotlock file when it fails for another reason than
the file being there, the descriptor or the error of `open(path, flags, mode)`,
and the errors of `flock` and `fcntl` (`none` is success). -/
structure answers where
  creat : Option Nat
  open_path : Except Nat Nat
  flock : Option Nat
  fcntl : Option Nat

/-- The error numbers used by `openlock`. -/
def EEXIST : Nat := 17

/-- The error number `EAGAIN`. -/
def EAGAIN : Nat := 11

/-- The error number `EWOULDBLOCK`. -/
def EWOULDBLOCK : Nat := 11

/-- Modelled from the spec: `cleanup_register(path)` is not in `mail.c`; it
registers the path for crash-cleanup. -/
def cleanup_register (w : world) (path : List Nat) : world :=
  { w with registry := path :: w.registry }

/-- Modelled from the spec: `cleanup_deregister(path)` is not in `mail.c`; it
takes the path off the crash-cleanup registry. -/
def cleanup_deregister (w : world) (path : List Nat) : world :=
  { w with registry := w.registry.erase path }

/-- The call `unlink(path)`. -/
def unlink (w : world) (path : List Nat) : world :=
  { w with files := w.files.erase path }

/-- The call `close(fd)`. -/
def close (w : world) (fd : Nat) : world :=
  { w with fds := w.fds.erase fd }

/-- The code after the label `error` of `openlock`: `errno` is kept across the
cleanup. -/
def openlock_error (w : world) (fd : Nat) (lock : List Nat) (locks : lockset) : Int × world :=
  let error := w.errno
  let w1 := close w fd
  let w2 := if locks.dotlock then cleanup_deregister (unlink w1 lock) lock else w1
  (-1, { w2 with errno := error })

/-- The function `openlock(path, locks, flags, mode)` on a state, given the
answers of the system: the value returned and the state on return.  What
`open(path, flags, mode)` does to the file at `path` depends on `flags` and is
left out of the state. -/
def openlock (w : world) (a : answers) (path : List Nat) (locks : lockset) : Int × world :=
  let lock := path ++ bytes ".lock"
  let r : Except world world :=
    if locks.dotlock then
      match (if lock ∈ w.files then some EEXIST else a.creat) with
      | some e => .error { w with errno := if e = EEXIST then EAGAIN else e }
      | none => .ok (cleanup_register { w with files := lock :: w.files } lock)
    else .ok w
  match r with
  | .error w1 => (-1, w1)
  | .ok w1 =>
    match a.open_path with
    | .error e => (-1, { w1 with errno := e })
    | .ok fd =>
      let w2 := { w1 with fds := fd :: w1.fds }
      match (if locks.flock then a.flock else none) with
      | some e => openlock_error { w2 with errno := if e = EWOULDBLOCK then EAGAIN else e }
          fd lock locks
      | none =>
        match (if locks.fcntl then a.fcntl else none) with
        | some e => openlock_error { w2 with errno := e } fd lock locks
        | none => (fd, w2)

/-! ## Predicates used in the statements -/

/-- Offset `p` is the start of a line of `d`. -/
def line_start (d : List Nat) (p : Nat) : Prop := p = 0 ∨ rd d (p - 1) = 10

instance (d : List Nat) (p : Nat) : Decidable (line_start d p) := by
  unfold line_start; infer_instance

/-- The exit test of the search loop of `find_header` at `p`: the bytes from
`p` are the name, ignoring case, followed by `:`. -/
def names_line (d hdr : List Nat) (p : Nat) : Prop :=
  rd d (p + hdr.length) = 58 ∧ strncasecmp (d.drop p) hdr hdr.length = 0

instance (d hdr : List Nat) (p : Nat) : Decidable (names_line d hdr p) := by
  unfold names_line; infer_instance

/-- The test of `trim_from` passes: the message has at least five bytes and
begins with `From `. -/
def has_from_line (m : mail) : Prop := ¬ (m.size < 5 ∨ strncmp m.data (bytes "From ") 5 ≠ 0)

instance (m : mail) : Decidable (has_from_line m) := by
  unfold has_from_line; infer_instance

/-! ## Reading bytes -/

theorem rd_append_left (a b : List Nat) (i : Nat) (h : i < a.length) :
    rd (a ++ b) i = rd a i := by
  unfold rd; exact List.getD_append a b 0 i h

theorem rd_append_right (a b : List Nat) (i : Nat) :
    rd (a ++ b) (a.length + i) = rd b i := by
  unfold rd
  rw [List.getD_append_right _ _ _ _ (by omega)]
  simp

theorem rd_drop (d : List Nat) (p i : Nat) : rd (d.drop p) i = rd d (p + i) := by
  unfold rd; simp [List.getElem?_drop]

theorem rd_tail (d : List Nat) (i : Nat) : rd d.tail i = rd d (i + 1) := by
  cases d with
  | nil => simp [rd]
  | cons x xs => simp [rd]

theorem rd_take (d : List Nat) (n i : Nat) (h : i < n) : rd (d.take n) i = rd d i := by
  unfold rd; simp [List.getElem?_take_of_lt h]

theorem rd_of_length_le (d : List Nat) (i : Nat) (h : d.length ≤ i) : rd d i = 0 := by
  unfold rd; exact List.getD_eq_default _ _ h

theorem rd_cons_zero (x : Nat) (xs : List Nat) : rd (x :: xs) 0 = x := rfl

theorem rd_cons_succ (x : Nat) (xs : List Nat) (i : Nat) : rd (x :: xs) (i + 1) = rd xs i := rfl

theorem rd_mem (d : List Nat) (i : Nat) (h : i < d.length) : rd d i ∈ d := by
  unfold rd
  rw [List.getD_eq_getElem _ _ h]
  exact List.getElem_mem h

/-! ## `memchr` -/

theorem memchr_some {p : List Nat} {c : Nat} :
    ∀ (n s q : Nat), memchr p s c n = some q →
      s ≤ q ∧ q < s + n ∧ rd p q = c ∧ ∀ j, s ≤ j → j < q → rd p j ≠ c := by
  intro n
  induction n with
  | zero => intro s q h; simp [memchr] at h
  | succ n ih =>
    intro s q h
    unfold memchr at h
    by_cases hc : rd p s = c
    · rw [if_pos hc] at h
      cases h
      exact ⟨le_refl _, by omega, hc, fun j h1 h2 => by omega⟩
    · rw [if_neg hc] at h
      obtain ⟨h1, h2, h3, h4⟩ := ih (s + 1) q h
      refine ⟨by omega, by omega, h3, fun j hj1 hj2 => ?_⟩
      by_cases hjs : j = s
      · subst hjs; exact hc
      · exact h4 j (by omega) hj2

theorem memchr_none {p : List Nat} {c : Nat} :
    ∀ (n s : Nat), memchr p s c n = none → ∀ j, s ≤ j → j < s + n → rd p j ≠ c := by
  intro n
  induction n with
  | zero => intro s _ j h1 h2; omega
  | succ n ih =>
    intro s h j h1 h2
    unfold memchr at h
    by_cases hc : rd p s = c
    · rw [if_pos hc] at h; cases h
    · rw [if_neg hc] at h
      by_cases hjs : j = s
      · subst hjs; exact hc
      · exact ih (s + 1) h j (by omega) (by omega)

theorem memchr_first {p : List Nat} {c : Nat} :
    ∀ (n s q : Nat), s ≤ q → q < s + n → rd p q = c →
      (∀ j, s ≤ j → j < q → rd p j ≠ c) → memchr p s c n = some q := by
  intro n
  induction n with
  | zero => intro s q h1 h2; omega
  | succ n ih =>
    intro s q h1 h2 h3 h4
    unfold memchr
    by_cases hc : rd p s = c
    · rw [if_pos hc]
      by_cases hqs : q = s
      · rw [hqs]
      · exact absurd hc (h4 s (le_refl _) (by omega))
    · rw [if_neg hc]
      have hqs : q ≠ s := fun h => hc (h ▸ h3)
      exact ih (s + 1) q (by omega) (by omega) h3 (fun j hj1 hj2 => h4 j (by omega) hj2)

theorem memchr_absent {p : List Nat} {c : Nat} :
    ∀ (n s : Nat), (∀ j, s ≤ j → j < s + n → rd p j ≠ c) → memchr p s c n = none := by
  intro n
  induction n with
  | zero => intro s _; rfl
  | succ n ih =>
    intro s h
    unfold memchr
    rw [if_neg (h s (le_refl _) (by omega))]
    exact ih (s + 1) (fun j h1 h2 => h j (by omega) (by omega))

/-- A byte equal to `c` in range makes `memchr` find one, the first. -/
theorem memchr_exists {p : List Nat} {c : Nat} (n s k : Nat) (h1 : s ≤ k) (h2 : k < s + n)
    (h3 : rd p k = c) :
    ∃ q, memchr p s c n = some q ∧ s ≤ q ∧ q ≤ k ∧ rd p q = c := by
  cases h : memchr p s c n with
  | none => exact absurd h3 (memchr_none n s h k h1 h2)
  | some q =>
    obtain ⟨a, b, c1, d⟩ := memchr_some n s q h
    refine ⟨q, rfl, a, ?_, c1⟩
    by_contra hlt
    exact d k h1 (by omega) h3

/-- The result of `memchr` depends only on the bytes it scans. -/
theorem memchr_congr {p p' : List Nat} {c : Nat} :
    ∀ (n s : Nat), (∀ j, s ≤ j → j < s + n → rd p j = rd p' j) →
      memchr p s c n = memchr p' s c n := by
  intro n
  induction n with
  | zero => intro s _; rfl
  | succ n ih =>
    intro s h
    unfold memchr
    rw [h s (le_refl _) (by omega), ih (s + 1) (fun j h1 h2 => h j (by omega) (by omega))]

/-! ## `tolower` and `strncasecmp` -/

theorem tolower_eq_zero {x : Nat} (h : tolower x = 0) : x = 0 := by
  unfold tolower at h; split at h <;> omega

theorem tolower_eq_newline {x : Nat} (h : tolower x = 10) : x = 10 := by
  unfold tolower at h; split at h <;> omega

theorem strncasecmp_congr_left :
    ∀ (n : Nat) (s1 s1' s2 : List Nat), (∀ i, i < n → rd s1 i = rd s1' i) →
      strncasecmp s1 s2 n = strncasecmp s1' s2 n := by
  intro n
  induction n with
  | zero => intros; rfl
  | succ n ih =>
    intro s1 s1' s2 h
    unfold strncasecmp
    rw [h 0 (by omega), ih s1.tail s1'.tail s2.tail
      (fun i hi => by rw [rd_tail, rd_tail]; exact h (i + 1) (by omega))]

theorem strncasecmp_fold :
    ∀ (n : Nat) (s1 s2 s2' : List Nat), s2.map tolower = s2'.map tolower →
      strncasecmp s1 s2 n = strncasecmp s1 s2' n := by
  intro n
  induction n with
  | zero => intros; rfl
  | succ n ih =>
    intro s1 s2 s2' h
    have hhead : tolower (rd s2 0) = tolower (rd s2' 0) := by
      cases s2 with
      | nil =>
        cases s2' with
        | nil => rfl
        | cons y ys => simp at h
      | cons x xs =>
        cases s2' with
        | nil => simp at h
        | cons y ys =>
          simp only [List.map_cons, List.cons.injEq] at h
          simpa [rd_cons_zero] using h.1
    have htail : s2.tail.map tolower = s2'.tail.map tolower := by
      cases s2 with
      | nil =>
        cases s2' with
        | nil => rfl
        | cons y ys => simp at h
      | cons x xs =>
        cases s2' with
        | nil => simp at h
        | cons y ys =>
          simp only [List.map_cons, List.cons.injEq] at h
          simpa using h.2
    unfold strncasecmp
    rw [hhead, ih s1.tail s2.tail s2'.tail htail]

theorem strncasecmp_eq_zero_of_eq :
    ∀ (n : Nat) (s1 s2 : List Nat), (∀ i, i < n → rd s1 i = rd s2 i) →
      strncasecmp s1 s2 n = 0 := by
  intro n
  induction n with
  | zero => intros; rfl
  | succ n ih =>
    intro s1 s2 h
    unfold strncasecmp
    simp only [h 0 (by omega), ne_eq, not_true_eq_false, if_false]
    split
    · rfl
    · exact ih s1.tail s2.tail (fun i hi => by rw [rd_tail, rd_tail]; exact h (i + 1) (by omega))

theorem strncasecmp_zero_imp :
    ∀ (n : Nat) (s1 s2 : List Nat), 0 ∉ s2 → n ≤ s2.length → strncasecmp s1 s2 n = 0 →
      ∀ i, i < n → tolower (rd s1 i) = tolower (rd s2 i) := by
  intro n
  induction n with
  | zero => intro _ _ _ _ _ i hi; omega
  | succ n ih =>
    intro s1 s2 h0 hlen h i hi
    unfold strncasecmp at h
    by_cases hc : tolower (rd s1 0) = tolower (rd s2 0)
    · simp only [hc, ne_eq, not_true_eq_false, if_false] at h
      have hne : tolower (rd s2 0) ≠ 0 := by
        intro hz
        have := tolower_eq_zero hz
        exact h0 (this ▸ rd_mem s2 0 (by omega))
      rw [if_neg hne] at h
      cases i with
      | zero => exact hc
      | succ j =>
        have h0' : 0 ∉ s2.tail := fun hm => h0 (List.mem_of_mem_tail hm)
        have hlen' : n ≤ s2.tail.length := by simp; omega
        have := ih s1.tail s2.tail h0' hlen' h j (by omega)
        rwa [rd_tail, rd_tail] at this
    · simp only [ne_eq, hc, not_false_eq_true, if_true] at h
      exact absurd (by omega) hc

/-! ## The search loop of `find_header` -/

theorem find_header_scan_succ (d hdr : List Nat) (e fuel ptr : Nat) :
    find_header_scan d hdr e (fuel + 1) ptr =
      if names_line d hdr ptr then some ptr
      else
        match memchr d ptr 10 (e - ptr) with
        | none => none
        | some p =>
          if hdr.length + 1 > e - (p + 1) then none
          else find_header_scan d hdr e fuel (p + 1) := by
  conv_lhs => rw [find_header_scan]
  unfold names_line
  simp only [Nat.add_sub_cancel, ne_eq]
  by_cases h1 : rd d (ptr + hdr.length) = 58 <;>
    by_cases h2 : strncasecmp (d.drop ptr) hdr hdr.length = 0 <;> simp [h1, h2]

/-- A line that passes the exit test has no newline in the name or at the colon. -/
theorem names_line_no_newline {d hdr : List Nat} {p : Nat} (h0 : 0 ∉ hdr) (h10 : 10 ∉ hdr)
    (h : names_line d hdr p) : ∀ i, i ≤ hdr.length → rd d (p + i) ≠ 10 := by
  intro i hi heq
  obtain ⟨hc, hs⟩ := h
  by_cases hlt : i < hdr.length
  · have := strncasecmp_zero_imp hdr.length (d.drop p) hdr h0 (le_refl _) hs i hlt
    rw [rd_drop, heq] at this
    have h2 : rd hdr i = 10 := tolower_eq_newline this.symm
    exact h10 (h2 ▸ rd_mem hdr i hlt)
  · have : i = hdr.length := by omega
    subst this
    omega

/-- The exit test depends only on the bytes of the name and the colon. -/
theorem names_line_congr {d d' hdr : List Nat} {p : Nat}
    (h : ∀ i, i ≤ hdr.length → rd d (p + i) = rd d' (p + i)) :
    names_line d hdr p ↔ names_line d' hdr p := by
  unfold names_line
  rw [h hdr.length (le_refl _),
    strncasecmp_congr_left hdr.length (d.drop p) (d'.drop p) hdr
      (fun i hi => by rw [rd_drop, rd_drop]; exact h i (by omega))]

/-- The search loop stops at the first line start that passes the exit test. -/
theorem find_header_scan_reaches (d hdr : List Nat) (e o : Nat)
    (hfit : o + hdr.length + 1 ≤ e) (hls : line_start d o) (hm : names_line d hdr o)
    (hno : ∀ p, p < o → line_start d p → ¬ names_line d hdr p) :
    ∀ (fuel p : Nat), p ≤ o → line_start d p → o - p < fuel →
      find_header_scan d hdr e fuel p = some o := by
  intro fuel
  induction fuel with
  | zero => intro p _ _ h; omega
  | succ fuel ih =>
    intro p hp hlp hf
    rw [find_header_scan_succ]
    by_cases hpo : p = o
    · subst hpo; rw [if_pos hm]
    · have hlt : p < o := by omega
      rw [if_neg (hno p hlt hlp)]
      have hnl : rd d (o - 1) = 10 := by
        rcases hls with h | h
        · omega
        · exact h
      obtain ⟨q, hq, hq1, hq2, hq3⟩ :=
        memchr_exists (e - p) p (o - 1) (by omega) (by omega) hnl
      rw [hq]
      simp only
      rw [if_neg (by omega)]
      exact ih (q + 1) (by omega) (Or.inr (by simpa using hq3)) (by omega)

/-- The full-line result of `find_header`: the first line start `o` that passes
the exit test, when a space follows the colon and the line ends at `q`. -/
theorem find_header_line (m : mail) (hdr : List Nat) (o q : Nat)
    (hfit : o + hdr.length + 1 ≤ header_end m) (hls : line_start m.data o)
    (hm : names_line m.data hdr o)
    (hno : ∀ p, p < o → line_start m.data p → ¬ names_line m.data hdr p)
    (hsp : isspace (rd m.data (o + hdr.length + 1)) = true)
    (hq1 : o + hdr.length + 1 ≤ q) (hq2 : q < header_end m) (hq3 : rd m.data q = 10)
    (hq4 : ∀ j, o + hdr.length + 1 ≤ j → j < q → rd m.data j ≠ 10) :
    find_header m hdr false = some (o, q - o) := by
  unfold find_header
  simp only
  rw [if_neg (by omega),
    find_header_scan_reaches m.data hdr (header_end m) o hfit hls hm hno (header_end m) 0
      (by omega) (Or.inl rfl) (by omega)]
  simp only
  have hmem : memchr m.data (o + (hdr.length + 1)) 10 (header_end m - (o + (hdr.length + 1)))
      = some q :=
    memchr_first _ _ q (by omega) (by omega) hq3 (fun j h1 h2 => hq4 j (by omega) h2)
  rw [hmem]
  have hsp' : isspace (rd m.data (o + (hdr.length + 1))) = true := by
    rw [← Nat.add_assoc]; exact hsp
  simp only [hsp', Bool.not_true, Bool.false_eq_true, if_false]
  simp only [Option.some.injEq, Prod.mk.injEq]
  constructor
  · omega
  · have key : q - (o + (hdr.length + 1)) + (hdr.length + 1) = q - o := by omega
    exact key

/-! ## The loops never run out of passes -/

/-- More passes than `e - ptr` do not change the result of the search loop of
`find_header`: the loop ends within the passes `find_header` gives it. -/
theorem find_header_scan_fuel (d hdr : List Nat) (e : Nat) :
    ∀ (fuel k ptr : Nat), ptr + hdr.length + 1 ≤ e → e - ptr ≤ fuel →
      find_header_scan d hdr e (fuel + k) ptr = find_header_scan d hdr e fuel ptr := by
  intro fuel
  induction fuel with
  | zero => intro k ptr h1 h2; omega
  | succ fuel ih =>
    intro k ptr h1 h2
    rw [show fuel + 1 + k = (fuel + k) + 1 by omega, find_header_scan_succ,
      find_header_scan_succ]
    split
    · rfl
    · cases hm : memchr d ptr 10 (e - ptr) with
      | none => rfl
      | some p =>
        simp only
        obtain ⟨hp, _, _, _⟩ := memchr_some _ _ _ hm
        split
        · rfl
        · exact ih k (p + 1) (by omega) (by omega)

theorem skip_quoted_ge (hdr : List Nat) (len : Nat) :
    ∀ (fuel off : Nat), off ≤ skip_quoted hdr len fuel off := by
  intro fuel
  induction fuel with
  | zero => intro off; exact le_refl _
  | succ fuel ih =>
    intro off
    unfold skip_quoted
    split
    · exact le_trans (Nat.le_succ off) (ih (off + 1))
    · exact le_refl _

/-- More passes than `len - off` do not change the result of the quote loop. -/
theorem skip_quoted_fuel (hdr : List Nat) (len : Nat) :
    ∀ (fuel k off : Nat), len - off ≤ fuel →
      skip_quoted hdr len (fuel + k) off = skip_quoted hdr len fuel off := by
  intro fuel
  induction fuel with
  | zero =>
    intro k off h
    cases k with
    | zero => rfl
    | succ k =>
      rw [show 0 + (k + 1) = k + 1 by omega]
      unfold skip_quoted
      rw [if_neg (by omega)]
  | succ fuel ih =>
    intro k off h
    rw [show fuel + 1 + k = (fuel + k) + 1 by omega]
    unfold skip_quoted
    split
    · exact ih k (off + 1) (by omega)
    · rfl

/-- More passes than `len - off` do not change the result of the first loop of
`find_address`; when the passes run out `off` has reached `len`. -/
theorem find_address_scan_fuel (valid : Nat → Bool) (hdr : List Nat) (len : Nat) :
    ∀ (fuel k off : Nat), len - off ≤ fuel →
      find_address_scan valid hdr len (fuel + k) off
        = find_address_scan valid hdr len fuel off := by
  intro fuel
  induction fuel with
  | zero =>
    intro k off h
    cases k with
    | zero => rfl
    | succ k =>
      rw [show 0 + (k + 1) = k + 1 by omega]
      unfold find_address_scan
      rw [if_neg (by omega)]
  | succ fuel ih =>
    intro k off h
    rw [show fuel + 1 + k = (fuel + k) + 1 by omega]
    conv_lhs => rw [find_address_scan]
    conv_rhs => rw [find_address_scan]
    have hsk := skip_quoted_ge hdr len len (off + 1)
    have e1 := ih k (off + 1 + 1) (by omega)
    have e2 := ih k (off + 1) (by omega)
    by_cases hlt : off < len
    · rw [if_pos hlt, if_pos hlt]
      by_cases h34 : rd hdr off = 34
      · rw [if_pos h34, if_pos h34]
        simp only
        apply ih
        split <;> omega
      · rw [if_neg h34, if_neg h34]
        by_cases h60 : rd hdr off = 60
        · rw [if_pos h60, if_pos h60]
          simp only [e1]
        · rw [if_neg h60, if_neg h60]
          exact e2
    · rw [if_neg hlt, if_neg hlt]

/-- More passes than `size - ptr` do not change the result of the loop of
`fill_wrapped`. -/
theorem fill_wrapped_loop_fuel (d : List Nat) (size e : Nat) :
    ∀ (fuel k ptr : Nat) (w : List Nat) (n : Nat), ptr ≤ size → size - ptr < fuel →
      fill_wrapped_loop d size e (fuel + k) ptr w n = fill_wrapped_loop d size e fuel ptr w n := by
  intro fuel
  induction fuel with
  | zero => intro k ptr w n _ h; omega
  | succ fuel ih =>
    intro k ptr w n h1 h2
    rw [show fuel + 1 + k = (fuel + k) + 1 by omega]
    conv_lhs => rw [fill_wrapped_loop]
    conv_rhs => rw [fill_wrapped_loop]
    cases hm : memchr d ptr 10 (size - ptr) with
    | none => rfl
    | some p =>
      simp only
      obtain ⟨hp1, hp2, _, _⟩ := memchr_some _ _ _ hm
      split
      · rfl
      · split
        · exact ih k _ _ _ (by omega) (by omega)
        · exact ih k _ _ _ (by omega) (by omega)

/-! ## Machine arithmetic -/

theorem add64_eq {a b : Nat} (h : a + b ≤ SIZE_MAX) : add64 a b = a + b := by
  unfold add64; unfold SIZE_MAX at h; exact Nat.mod_eq_of_lt (by omega)

theorem sub64_eq {a b : Nat} (h1 : b ≤ a) (h2 : a ≤ SIZE_MAX) : sub64 a b = a - b := by
  unfold sub64; unfold SIZE_MAX at h2
  have h3 : a + 2 ^ 64 - b = (a - b) + 2 ^ 64 := by omega
  rw [h3, Nat.add_mod_right]
  exact Nat.mod_eq_of_lt (by omega)

theorem to_size_eq {x : Int} (h1 : 0 ≤ x) (h2 : x ≤ (SIZE_MAX : Nat)) :
    (to_size x : Int) = x := by
  unfold to_size
  unfold SIZE_MAX at h2
  have h3 : x % 2 ^ 64 = x := Int.emod_eq_of_lt h1 (by norm_num at h2 ⊢; omega)
  rw [h3]
  exact Int.toNat_of_nonneg h1

theorem header_end_le {m : mail} (h : m.wf) : header_end m ≤ m.size := by
  obtain ⟨h1, h2, h3, h4⟩ := h
  unfold header_end
  split
  · exact le_refl _
  · rcases h4 with h4 | ⟨h5, h6⟩
    · contradiction
    · have hb : m.body ≤ (SIZE_MAX : Nat) := by
        have : (m.size : Int) ≤ (SIZE_MAX : Nat) := by exact_mod_cast (by omega : m.size ≤ SIZE_MAX)
        omega
      have := to_size_eq h5 hb
      omega

/-! ## `resize_mail` -/

theorem resize_loop_ret (t : Nat) :
    ∀ (fuel : Nat) (b : List Nat) (s : Nat) (b' : List Nat) (s' : Nat),
      resize_loop t fuel b s = .ret (b', s') →
        (∃ Z, b' = b ++ Z) ∧ t < s' ∧ (s ≤ b.length → s' ≤ b'.length) ∧
          (s ≤ SIZE_MAX → s' ≤ SIZE_MAX) := by
  intro fuel
  induction fuel with
  | zero => intro b s b' s' h; simp [resize_loop] at h
  | succ fuel ih =>
    intro b s b' s' h
    unfold resize_loop at h
    by_cases hs : s ≤ t
    · rw [if_pos hs] at h
      obtain ⟨⟨Z, hZ⟩, h2, h3, h4⟩ := ih _ _ _ _ h
      refine ⟨⟨List.replicate (2 * s - b.length) 0 ++ Z, ?_⟩, h2, fun _ => h3 ?_, fun _ => h4 ?_⟩
      · rw [hZ]; unfold shm_realloc; simp
      · unfold shm_realloc
        have := Nat.mod_le (s * 2) (2 ^ 64)
        simp only [List.length_append, List.length_replicate]
        omega
      · have := Nat.mod_lt (s * 2) (by norm_num : 2 ^ 64 > 0)
        unfold SIZE_MAX; omega
    · rw [if_neg hs] at h
      simp only [Outcome.ret.injEq, Prod.mk.injEq] at h
      obtain ⟨rfl, rfl⟩ := h
      exact ⟨⟨[], by simp⟩, by omega, fun h => h, fun h => h⟩

theorem resize_mail_ret {m m1 : mail} {n : Nat} (h : resize_mail m n = .ret m1) :
    m1.off = m.off ∧ m1.size = m.size ∧ m1.body = m.body ∧ m1.wrapped = m.wrapped ∧
      (∃ Z, m1.base = m.base ++ Z) ∧ m.off + n < m1.space ∧
      (m.space ≤ m.base.length → m1.space ≤ m1.base.length) ∧
      (m.space ≤ SIZE_MAX → m1.space ≤ SIZE_MAX) := by
  unfold resize_mail at h
  split at h
  · cases h
  · split at h
    · rename_i b s hl
      simp only [Outcome.ret.injEq] at h
      subst h
      obtain ⟨h1, h2, h3, h4⟩ := resize_loop_ret _ _ _ _ _ _ hl
      exact ⟨rfl, rfl, rfl, rfl, h1, h2, h3, h4⟩
    · cases h
    · cases h

/-! ## The bytes written by `insert_header` and `remove_header` -/

theorem memcpy_mid (P Q S B : List Nat) (h : Q.length = S.length) :
    memcpy (P ++ (Q ++ B)) P.length S = P ++ (S ++ B) := by
  unfold memcpy
  rw [List.take_left' rfl, ← List.append_assoc P Q B, List.drop_left' (by simp [h])]
  simp

theorem insert_bytes (A pre post X R T : List Nat) (hX : X.length = T.length + 1) :
    (memcpy
        (memmove (A ++ (pre ++ (post ++ (X ++ R)))) (A.length + pre.length + (T.length + 1))
          (A.length + pre.length) post.length)
        (A.length + pre.length) T).set (A.length + pre.length + (T.length + 1) - 1) 10
      = A ++ (pre ++ (T ++ 10 :: (post ++ R))) := by
  have hsrc : ((A ++ (pre ++ (post ++ (X ++ R)))).drop (A.length + pre.length)).take post.length
      = post := by
    rw [← List.append_assoc, List.drop_left' (by simp), List.take_left' rfl]
  obtain ⟨Y, W, hYW, hY, hW⟩ : ∃ Y W : List Nat, post ++ X = Y ++ W ∧
      Y.length = T.length + 1 ∧ W.length = post.length :=
    ⟨(post ++ X).take (T.length + 1), (post ++ X).drop (T.length + 1),
      (List.take_append_drop _ _).symm, by simp [hX], by simp [hX]⟩
  obtain ⟨Y1, y, hYy, hY1⟩ : ∃ (Y1 : List Nat) (y : Nat), Y = Y1 ++ [y] ∧ Y1.length = T.length := by
    have hne : Y ≠ [] := by intro h; rw [h] at hY; simp at hY
    refine ⟨Y.dropLast, Y.getLast hne, (List.dropLast_append_getLast hne).symm, ?_⟩
    simp [hY]
  unfold memmove
  rw [hsrc]
  have hb : A ++ (pre ++ (post ++ (X ++ R))) = (A ++ (pre ++ Y)) ++ (W ++ R) := by
    rw [← List.append_assoc post X R, hYW]; simp
  have hlen1 : A.length + pre.length + (T.length + 1) = (A ++ (pre ++ Y)).length := by
    simp [hY]; omega
  rw [hb, hlen1, memcpy_mid _ W post R hW]
  have hb2 : A ++ (pre ++ Y) ++ (post ++ R) = (A ++ pre) ++ (Y1 ++ (y :: (post ++ R))) := by
    rw [hYy]; simp
  have hlen2 : A.length + pre.length = (A ++ pre).length := by simp
  rw [hb2, ← hlen1, hlen2, memcpy_mid _ Y1 T _ hY1]
  have hb3 : A ++ pre ++ (T ++ y :: (post ++ R)) = (A ++ pre ++ T) ++ (y :: (post ++ R)) := by
    simp
  have hlen3 : (A ++ pre).length + (T.length + 1) - 1 = (A ++ pre ++ T).length + 0 := by
    simp; omega
  rw [hb3, hlen3, List.set_append_right _ _ (by omega)]
  simp

theorem remove_bytes (A pre L post R : List Nat) :
    memmove (A ++ (pre ++ (L ++ (post ++ R)))) (A.length + pre.length)
        (A.length + pre.length + L.length) post.length
      = A ++ (pre ++ (post ++ ((L ++ post ++ R).drop post.length))) := by
  unfold memmove memcpy
  have h1 : (A ++ (pre ++ (L ++ (post ++ R)))).drop (A.length + pre.length + L.length)
      = post ++ R := by
    have : A ++ (pre ++ (L ++ (post ++ R))) = (A ++ pre ++ L) ++ (post ++ R) := by simp
    rw [this, List.drop_left' (by simp [Nat.add_assoc])]
  have h2 : (A ++ (pre ++ (L ++ (post ++ R)))).take (A.length + pre.length) = A ++ pre := by
    rw [← List.append_assoc, List.take_left' (by simp)]
  have h3 : (A ++ (pre ++ (L ++ (post ++ R)))).drop (A.length + pre.length + post.length)
      = (L ++ post ++ R).drop post.length := by
    have : A ++ (pre ++ (L ++ (post ++ R))) = (A ++ pre) ++ (L ++ post ++ R) := by simp
    rw [this, show A.length + pre.length + post.length = (A ++ pre).length + post.length by simp,
      List.drop_append]
  rw [h1, List.take_left' rfl, h2, h3]
  simp

/-! ## The offset and the effect of `insert_header` -/

theorem find_header_scan_bound (d hdr : List Nat) (e : Nat) :
    ∀ (fuel ptr o : Nat), find_header_scan d hdr e fuel ptr = some o →
      ptr + hdr.length + 1 ≤ e → o + hdr.length + 1 ≤ e := by
  intro fuel
  induction fuel with
  | zero => intro ptr o h; simp [find_header_scan] at h
  | succ fuel ih =>
    intro ptr o h hp
    rw [find_header_scan_succ] at h
    split at h
    · cases h; exact hp
    · split at h
      · cases h
      · rename_i q hq
        split at h
        · cases h
        · rename_i hlt
          exact ih (q + 1) o h (by omega)

theorem find_header_line_bound {m : mail} {hdr : List Nat} {p l : Nat}
    (h : find_header m hdr false = some (p, l)) : p + hdr.length + 1 ≤ header_end m := by
  unfold find_header at h
  simp only at h
  split at h
  · cases h
  · rename_i hle
    split at h
    · cases h
    · rename_i ptr hs
      split at h
      · cases h
      · simp only [Bool.false_eq_true, if_false, Option.some.injEq, Prod.mk.injEq] at h
        have := find_header_scan_bound _ _ _ _ _ _ hs (by omega)
        omega

theorem insert_offset_le {m : mail} {before : Option (List Nat)} {off : Nat} (hwf : m.wf)
    (h : insert_offset m before = some off) : off ≤ m.size := by
  have he := header_end_le hwf
  obtain ⟨h1, h2, h3, h4⟩ := hwf
  unfold insert_offset at h
  cases before with
  | some b =>
    simp only at h
    cases hf : find_header m b false with
    | none => rw [hf] at h; cases h
    | some r =>
      obtain ⟨p, l⟩ := r
      rw [hf] at h
      simp only [Option.some.injEq] at h
      have := find_header_line_bound hf
      omega
  | none =>
    simp only at h
    split at h
    · simp only [Option.some.injEq] at h; omega
    · split at h
      · simp only [Option.some.injEq] at h; omega
      · rename_i hb1 hb2
        simp only [Option.some.injEq] at h
        rcases h4 with h4 | ⟨h5, h6⟩
        · contradiction
        · have hs : (m.size : Int) ≤ (SIZE_MAX : Nat) := by
            exact_mod_cast (by omega : m.size ≤ SIZE_MAX)
          have := to_size_eq (x := m.body - 1) (by omega) (by omega)
          omega

/-- The effect of a successful `insert_header` on a well-formed message whose
new length fits a `size_t`. -/
theorem insert_header_ret {m m' : mail} {before : Option (List Nat)} {T : List Nat}
    (hwf : m.wf) (hfit : m.size + (T.length + 1) ≤ SIZE_MAX)
    (h : insert_header m before T = .ret (0, m')) :
    ∃ off R, insert_offset m before = some off ∧ off ≤ m.size ∧
      m'.data = m.content.take off ++ (T ++ 10 :: (m.content.drop off ++ R)) ∧
      m'.size = m.size + (T.length + 1) ∧ m'.off = m.off ∧
      m'.body = (if m.body ≠ -1 then m.body + ((T.length + 1 : Nat) : Int) else m.body) ∧
      m'.wrapped = m.wrapped ∧ m'.wf := by
  unfold insert_header at h
  cases hoff : insert_offset m before with
  | none => rw [hoff] at h; simp at h
  | some off =>
    have hle := insert_offset_le hwf hoff
    obtain ⟨w1, w2, w3, w4⟩ := hwf
    rw [hoff] at h
    simp only at h
    rw [add64_eq hfit] at h
    cases hr : resize_mail m (m.size + (T.length + 1)) with
    | fatal => rw [hr] at h; cases h
    | hang => rw [hr] at h; cases h
    | ret m1 =>
      rw [hr] at h
      simp only [Outcome.ret.injEq, Prod.mk.injEq, true_and] at h
      obtain ⟨r1, r2, r3, r4, ⟨Z, r5⟩, r6, r7, r8⟩ := resize_mail_ret hr
      have r7' := r7 w1
      have r8' := r8 w3
      rw [r1, r2, r3, add64_eq hfit, sub64_eq hle (by omega)] at h
      -- the layout of the allocation after the resize
      have hA : (m.base.take m.off).length = m.off := by simp; omega
      have hC : m.content.length = m.size := by
        unfold mail.content mail.data; simp; omega
      have hbase : m.base = m.base.take m.off ++ (m.content ++ m.base.drop (m.off + m.size)) := by
        unfold mail.content mail.data
        rw [← List.drop_drop, List.take_append_drop, List.take_append_drop]
      have hpre : (m.content.take off).length = off := by simp [hC]; omega
      have hpost : (m.content.drop off).length = m.size - off := by simp [hC]
      obtain ⟨X, R, hXR, hX⟩ : ∃ X R : List Nat,
          m.base.drop (m.off + m.size) ++ Z = X ++ R ∧ X.length = T.length + 1 := by
        refine ⟨(m.base.drop (m.off + m.size) ++ Z).take (T.length + 1),
          (m.base.drop (m.off + m.size) ++ Z).drop (T.length + 1),
          (List.take_append_drop _ _).symm, ?_⟩
        have hl : m1.base.length = m.base.length + Z.length := by rw [r5]; simp
        simp only [List.length_take, List.length_append, List.length_drop]
        omega
      have hb1 : m1.base = m.base.take m.off ++
          (m.content.take off ++ (m.content.drop off ++ (X ++ R))) := by
        rw [r5, ← hXR]
        conv_lhs => rw [hbase]
        simp only [List.append_assoc]
        rw [← List.append_assoc (m.content.take off), List.take_append_drop]
      have key := insert_bytes (m.base.take m.off) (m.content.take off) (m.content.drop off)
        X R T hX
      rw [hA, hpre, hpost, ← hb1] at key
      rw [key] at h
      subst h
      have hl2 : (m.base.take m.off ++
          (m.content.take off ++ (T ++ 10 :: (m.content.drop off ++ R)))).length
          = m1.base.length := by
        rw [hb1]; simp [hX]; omega
      refine ⟨off, R, rfl, hle, ?_, rfl, rfl, rfl, r4, ?_, ?_, r8', ?_⟩
      · unfold mail.data
        simp only
        rw [List.drop_left' hA]
      · simp only; rw [hl2]; exact r7'
      · simp only; omega
      · simp only
        rcases w4 with w4 | ⟨w5, w6⟩
        · left; simp [w4]
        · right
          have : m.body ≠ -1 := by omega
          rw [if_pos this]
          constructor
          · omega
          · push_cast; omega

/-! ## Finding the header that was inserted -/

theorem insert_offset_none {m : mail} {off : Nat} (hwf : m.wf)
    (h : insert_offset m none = some off) :
    (m.body = -1 ∧ off = m.size) ∨ (0 ≤ m.body ∧ (off : Int) ≤ m.body) := by
  obtain ⟨h1, h2, h3, h4⟩ := hwf
  unfold insert_offset at h
  simp only at h
  split at h
  · rename_i hb
    simp only [Option.some.injEq] at h
    exact Or.inl ⟨hb, h.symm⟩
  · rename_i hb
    rcases h4 with h4 | ⟨h5, h6⟩
    · contradiction
    · right
      split at h
      · simp only [Option.some.injEq] at h
        subst h
        exact ⟨h5, by simpa using h5⟩
      · simp only [Option.some.injEq] at h
        have hs : (m.size : Int) ≤ (SIZE_MAX : Nat) := by
          exact_mod_cast (by omega : m.size ≤ SIZE_MAX)
        have := to_size_eq (x := m.body - 1) (by omega) (by omega)
        exact ⟨h5, by omega⟩

/-- After a header `name: value` is put at a line start `off` of the header
region, with no earlier line of that name, `find_header` returns that line. -/
theorem find_header_inserted (m' : mail) (pre name value rest : List Nat) (c : List Nat)
    (hd : m'.data = pre ++ ((name ++ 58 :: 32 :: value) ++ 10 :: rest))
    (hc : pre = c.take pre.length)
    (he : pre.length + (name ++ 58 :: 32 :: value).length < header_end m')
    (h0 : 0 ∉ name) (h10 : 10 ∉ name ++ 58 :: 32 :: value)
    (hls : line_start c pre.length)
    (hno : ∀ p, p < pre.length → line_start c p → ¬ names_line pre name p) :
    find_header m' name false = some (pre.length, (name ++ 58 :: 32 :: value).length) := by
  have hpre : ∀ i, i < pre.length → rd m'.data i = rd pre i := fun i hi => by
    rw [hd, rd_append_left _ _ _ hi]
  have hprec : ∀ i, i < pre.length → rd pre i = rd c i := fun i hi => by
    conv_lhs => rw [hc]
    exact rd_take _ _ _ hi
  have hT : ∀ k, k < (name ++ 58 :: 32 :: value).length →
      rd m'.data (pre.length + k) = rd (name ++ 58 :: 32 :: value) k := fun k hk => by
    rw [hd, rd_append_right, rd_append_left _ _ _ hk]
  have hnl : rd m'.data (pre.length + (name ++ 58 :: 32 :: value).length) = 10 := by
    rw [hd, rd_append_right, ← Nat.add_zero (name ++ 58 :: 32 :: value).length,
      rd_append_right]
    rfl
  have hTlen : (name ++ 58 :: 32 :: value).length = name.length + 2 + value.length := by
    simp; omega
  have hcolon : rd (name ++ 58 :: 32 :: value) name.length = 58 := by
    rw [← Nat.add_zero name.length, rd_append_right]; rfl
  have hspace : rd (name ++ 58 :: 32 :: value) (name.length + 1) = 32 := by
    rw [rd_append_right]; rfl
  have h10n : 10 ∉ name := fun h => h10 (List.mem_append_left _ h)
  have hls' : line_start m'.data pre.length := by
    by_cases hz : pre.length = 0
    · exact Or.inl hz
    · rcases hls with h | h
      · exact absurd h hz
      · right
        rw [hpre _ (by omega), hprec _ (by omega)]; exact h
  have hm : names_line m'.data name pre.length := by
    constructor
    · rw [hT _ (by omega)]; exact hcolon
    · apply strncasecmp_eq_zero_of_eq
      intro i hi
      rw [rd_drop, hT _ (by omega), rd_append_left _ _ _ hi]
  have hno' : ∀ p, p < pre.length → line_start m'.data p → ¬ names_line m'.data name p := by
    intro p hp hlp hnm
    have hlc : line_start c p := by
      by_cases hz : p = 0
      · exact Or.inl hz
      · rcases hlp with h | h
        · exact absurd h hz
        · right
          rw [hpre _ (by omega), hprec _ (by omega)] at h; exact h
    have hnonl := names_line_no_newline h0 h10n hnm
    have hend : rd m'.data (pre.length - 1) = 10 := by
      rcases hls with h | h
      · omega
      · rw [hpre _ (by omega), hprec _ (by omega)]; exact h
    have hin : p + name.length < pre.length := by
      by_contra hge
      have := hnonl (pre.length - 1 - p) (by omega)
      rw [show p + (pre.length - 1 - p) = pre.length - 1 by omega] at this
      exact this hend
    have : names_line pre name p :=
      (names_line_congr (fun i hi => hpre (p + i) (by omega))).mp hnm
    exact hno p hp hlc this
  have hres := find_header_line m' name pre.length
    (pre.length + (name ++ 58 :: 32 :: value).length) (by omega) hls' hm hno'
    (by rw [Nat.add_assoc, hT _ (by omega), hspace]; rfl) (by omega) he hnl
    (by
      intro j hj1 hj2
      obtain ⟨k, rfl⟩ : ∃ k, j = pre.length + k := ⟨j - pre.length, by omega⟩
      rw [hT k (by omega)]
      intro heq
      exact h10 (heq ▸ rd_mem _ k (by omega)))
  rw [hres]
  simp

/-- The state after `insert_header(m, NULL, "name: value")` at a line start
with no earlier line of that name: the layout of the data and the result of
`find_header`. -/
theorem insert_then_find_aux {m m' : mail} {name value : List Nat} {off : Nat}
    (hwf : m.wf) (hfit : m.size + ((name ++ 58 :: 32 :: value).length + 1) ≤ SIZE_MAX)
    (h0 : 0 ∉ name) (h10 : 10 ∉ name ++ 58 :: 32 :: value)
    (hoff : insert_offset m none = some off)
    (hls : line_start m.content off)
    (hno : ∀ p, p < off → line_start m.content p → ¬ names_line (m.content.take off) name p)
    (hins : insert_header m none (name ++ 58 :: 32 :: value) = .ret (0, m')) :
    off ≤ m.size ∧
    (∃ R, m'.data = m.content.take off ++
      ((name ++ 58 :: 32 :: value) ++ 10 :: (m.content.drop off ++ R))) ∧
    find_header m' name false = some (off, (name ++ 58 :: 32 :: value).length) ∧
    m'.size = m.size + ((name ++ 58 :: 32 :: value).length + 1) ∧ m'.off = m.off ∧
    m'.body = (if m.body ≠ -1 then
      m.body + (((name ++ 58 :: 32 :: value).length + 1 : Nat) : Int) else m.body) ∧
    m'.wf := by
  obtain ⟨off', R, e1, e2, e3, e4, e5, e6, e7, e8⟩ := insert_header_ret hwf hfit hins
  rw [hoff] at e1
  simp only [Option.some.injEq] at e1
  subst e1
  have hC : m.content.length = m.size := by
    obtain ⟨w1, w2, w3, w4⟩ := hwf
    unfold mail.content mail.data; simp; omega
  have hpl : (m.content.take off).length = off := by simp [hC]; omega
  have hend : off + (name ++ 58 :: 32 :: value).length < header_end m' := by
    unfold header_end
    rw [e6, e4]
    rcases insert_offset_none hwf hoff with ⟨hb, ho⟩ | ⟨hb, ho⟩
    · rw [hb]; simp only [ne_eq, not_true_eq_false, if_false, if_true]; omega
    · have hne : m.body ≠ -1 := by omega
      simp only [ne_eq, hne, not_false_eq_true, if_true]
      have hne' : m.body + (((name ++ 58 :: 32 :: value).length + 1 : Nat) : Int) ≠ -1 := by
        omega
      rw [if_neg hne']
      obtain ⟨w1, w2, w3, w4⟩ := hwf
      have hbs : m.body ≤ m.size := by
        rcases w4 with w4 | ⟨_, w6⟩
        · omega
        · exact w6
      have hs : ((m.size + ((name ++ 58 :: 32 :: value).length + 1) : Nat) : Int)
          ≤ (SIZE_MAX : Nat) := by exact_mod_cast hfit
      have := to_size_eq
        (x := m.body + (((name ++ 58 :: 32 :: value).length + 1 : Nat) : Int))
        (by omega) (by push_cast at hs ⊢; omega)
      omega
  have hf := find_header_inserted m' (m.content.take off) name value (m.content.drop off ++ R)
    m.content e3 (by rw [hpl]) (by rw [hpl]; exact hend) h0 h10 (by rw [hpl]; exact hls)
    (by rw [hpl]; exact hno)
  rw [hpl] at hf
  exact ⟨e2, ⟨R, e3⟩, hf, e4, e5, e6, e8⟩

/-- C1 (amended): after a successful `insert_header(m, NULL, "name: value")` on
a well-formed message, where the insertion offset is the start of a line and no
line before it begins with the name and a colon, `find_header(m, name, 0)`
returns the inserted line: its offset is the insertion offset, its length the
length of the text, and the bytes of that span are exactly the text. -/
theorem insert_then_find (m m' : mail) (name value : List Nat) (off : Nat)
    (hwf : m.wf) (hfit : m.size + ((name ++ 58 :: 32 :: value).length + 1) ≤ SIZE_MAX)
    (h0 : 0 ∉ name) (h10 : 10 ∉ name ++ 58 :: 32 :: value)
    (hoff : insert_offset m none = some off)
    (hls : line_start m.content off)
    (hno : ∀ p, p < off → line_start m.content p → ¬ names_line (m.content.take off) name p)
    (hins : insert_header m none (name ++ 58 :: 32 :: value) = .ret (0, m')) :
    find_header m' name false = some (off, (name ++ 58 :: 32 :: value).length) ∧
      (m'.content.drop off).take (name ++ 58 :: 32 :: value).length
        = name ++ 58 :: 32 :: value := by
  obtain ⟨a1, ⟨R, a2⟩, a3, a4, a5, a6, a7⟩ :=
    insert_then_find_aux hwf hfit h0 h10 hoff hls hno hins
  refine ⟨a3, ?_⟩
  have hC : m.content.length = m.size := by
    obtain ⟨w1, w2, w3, w4⟩ := hwf
    unfold mail.content mail.data; simp; omega
  have hpl : (m.content.take off).length = off := by simp [hC]; omega
  unfold mail.content
  rw [a2, a4, List.drop_take, List.drop_left' hpl, List.take_take,
    List.take_append_of_le_length (by omega)]
  apply List.take_of_length_le
  omega

/-- C2 (amended): under the conditions of C1, `remove_header(m, name)` after a
successful `insert_header(m, NULL, "name: value")` returns 0 and leaves the
content, the length and `body` of the message as they were before the insert. -/
theorem insert_then_remove (m m' : mail) (name value : List Nat) (off : Nat)
    (hwf : m.wf) (hfit : m.size + ((name ++ 58 :: 32 :: value).length + 1) ≤ SIZE_MAX)
    (h0 : 0 ∉ name) (h10 : 10 ∉ name ++ 58 :: 32 :: value)
    (hoff : insert_offset m none = some off)
    (hls : line_start m.content off)
    (hno : ∀ p, p < off → line_start m.content p → ¬ names_line (m.content.take off) name p)
    (hins : insert_header m none (name ++ 58 :: 32 :: value) = .ret (0, m')) :
    (remove_header m' name).1 = 0 ∧
      (remove_header m' name).2.content = m.content ∧
      (remove_header m' name).2.size = m.size ∧
      (remove_header m' name).2.body = m.body := by
  obtain ⟨a1, ⟨R, a2⟩, a3, a4, a5, a6, a7⟩ :=
    insert_then_find_aux hwf hfit h0 h10 hoff hls hno hins
  have hC : m.content.length = m.size := by
    obtain ⟨w1, w2, w3, w4⟩ := hwf
    unfold mail.content mail.data; simp; omega
  have hpl : (m.content.take off).length = off := by simp [hC]; omega
  have hpost : (m.content.drop off).length = m.size - off := by simp [hC]
  obtain ⟨v1, v2, v3, v4⟩ := a7
  have hA : (m'.base.take m'.off).length = m'.off := by simp; omega
  have hbase : m'.base = m'.base.take m'.off ++ (m.content.take off ++
      (((name ++ 58 :: 32 :: value) ++ [10]) ++ (m.content.drop off ++ R))) := by
    conv_lhs => rw [← List.take_append_drop m'.off m'.base]
    have : m'.base.drop m'.off = m'.data := rfl
    rw [this, a2]
    simp
  have hlen : add64 (name ++ 58 :: 32 :: value).length 1
      = (name ++ 58 :: 32 :: value).length + 1 := add64_eq (by omega)
  have hsz : sub64 m'.size ((name ++ 58 :: 32 :: value).length + 1) = m.size := by
    rw [sub64_eq (by omega) (by omega), a4]; omega
  have hmv : sub64 m.size off = (m.content.drop off).length := by
    rw [sub64_eq a1 (by omega), hpost]
  have key := remove_bytes (m'.base.take m'.off) (m.content.take off)
    ((name ++ 58 :: 32 :: value) ++ [10]) (m.content.drop off) R
  rw [← hbase, hA, hpl] at key
  have hLlen : ((name ++ 58 :: 32 :: value) ++ [10]).length
      = (name ++ 58 :: 32 :: value).length + 1 := by rw [List.length_append]; rfl
  rw [hLlen] at key
  unfold remove_header
  rw [a3]
  simp only
  rw [hlen, hsz, hmv, key]
  refine ⟨trivial, ?_, rfl, ?_⟩
  · unfold mail.content mail.data
    simp only
    rw [List.drop_left' hA, ← List.append_assoc, List.take_append_drop]
    exact List.take_left' hC
  · obtain ⟨w1, w2, w3, w4⟩ := hwf
    by_cases hb : m.body = -1
    · rw [if_neg (by simp [hb])] at a6
      rw [a6, hb]
      simp
    · rw [if_pos hb] at a6
      have hnn : 0 ≤ m.body := by
        rcases w4 with w4 | ⟨w5, _⟩
        · exact absurd w4 hb
        · exact w5
      have hne : m'.body ≠ -1 := by rw [a6]; omega
      rw [if_pos hne, a6]
      omega

/-- C3: a successful `insert_header` on a well-formed message keeps every
existing byte: the content becomes the old content up to the insertion offset,
the text, a newline and the rest of the old content; the length grows by the
text and the newline, and so does `body` when it is known.  The capacity may
have been doubled any number of times on the way. -/
theorem insert_header_content (m m' : mail) (before : Option (List Nat)) (T : List Nat)
    (hwf : m.wf) (hfit : m.size + (T.length + 1) ≤ SIZE_MAX)
    (h : insert_header m before T = .ret (0, m')) :
    ∃ off, insert_offset m before = some off ∧
      m'.content = m.content.take off ++ T ++ [10] ++ m.content.drop off ∧
      m'.size = m.size + T.length + 1 ∧ m'.off = m.off ∧
      (m.body ≠ -1 → m'.body = m.body + ((T.length + 1 : Nat) : Int)) ∧
      (m.body = -1 → m'.body = -1) := by
  obtain ⟨off, R, e1, e2, e3, e4, e5, e6, e7, e8⟩ := insert_header_ret hwf hfit h
  have hC : m.content.length = m.size := by
    obtain ⟨w1, w2, w3, w4⟩ := hwf
    unfold mail.content mail.data; simp; omega
  refine ⟨off, e1, ?_, by omega, e5, fun hb => by rw [e6, if_pos hb],
    fun hb => by rw [e6, if_neg (by simp [hb]), hb]⟩
  show m'.data.take m'.size = _
  rw [e3, e4]
  have : m.content.take off ++ (T ++ 10 :: (m.content.drop off ++ R))
      = (m.content.take off ++ T ++ [10] ++ m.content.drop off) ++ R := by
    simp
  rw [this]
  apply List.take_left'
  simp [hC]
  omega

/-- C1, instance: `X: v` inserted before the blank line of `A: b` (body at 6)
is found at offset 5 with length 4. -/
theorem insert_then_find_witness :
    insert_header (mail.mk (bytes "A: b\n\nbody") 10 0 10 6 []) none (bytes "X: v")
      = .ret (0, mail.mk (bytes "A: b\nX: v\n\nbody\x00\x00\x00\x00\x00") 20 0 15 11 []) ∧
    find_header (mail.mk (bytes "A: b\nX: v\n\nbody\x00\x00\x00\x00\x00") 20 0 15 11 [])
      (bytes "X") false = some (5, 4) ∧
    ((mail.mk (bytes "A: b\nX: v\n\nbody\x00\x00\x00\x00\x00") 20 0 15 11 []).content.drop 5).take 4
      = bytes "X: v" :=
  ⟨by decide,
    insert_then_find (mail.mk (bytes "A: b\n\nbody") 10 0 10 6 [])
      (mail.mk (bytes "A: b\nX: v\n\nbody\x00\x00\x00\x00\x00") 20 0 15 11 [])
      (bytes "X") (bytes "v") 5 (by decide) (by decide) (by decide) (by decide) (by decide)
      (by decide) (by decide) (by decide)⟩

/-- C1, counterexample: with a `Subject` line already in the message, the
inserted `Subject: new` is not what `find_header` returns; it returns the
older line `Subject: old`. -/
theorem insert_then_find_counterexample :
    insert_header (mail.mk (bytes "Subject: old\n") 13 0 13 (-1) []) none (bytes "Subject: new")
      = .ret (0, mail.mk (bytes "Subject: old\nSubject: new\n" ++ List.replicate 26 0)
          52 0 26 (-1) []) ∧
    find_header (mail.mk (bytes "Subject: old\nSubject: new\n" ++ List.replicate 26 0)
      52 0 26 (-1) []) (bytes "Subject") false = some (0, 12) ∧
    ((mail.mk (bytes "Subject: old\nSubject: new\n" ++ List.replicate 26 0)
      52 0 26 (-1) []).content.drop 0).take 12 = bytes "Subject: old" ∧
    bytes "Subject: old" ≠ bytes "Subject: new" := by
  decide

/-- C2, instance: removing `X` after inserting `X: v` before the blank line of
`A: b` gives back the ten bytes of the message, its length and its body
offset. -/
theorem insert_then_remove_witness :
    insert_header (mail.mk (bytes "A: b\n\nbody") 10 0 10 6 []) none (bytes "X: v")
      = .ret (0, mail.mk (bytes "A: b\nX: v\n\nbody\x00\x00\x00\x00\x00") 20 0 15 11 []) ∧
    (remove_header (mail.mk (bytes "A: b\nX: v\n\nbody\x00\x00\x00\x00\x00") 20 0 15 11 [])
      (bytes "X")).1 = 0 ∧
    (remove_header (mail.mk (bytes "A: b\nX: v\n\nbody\x00\x00\x00\x00\x00") 20 0 15 11 [])
      (bytes "X")).2.content = (mail.mk (bytes "A: b\n\nbody") 10 0 10 6 []).content ∧
    (remove_header (mail.mk (bytes "A: b\nX: v\n\nbody\x00\x00\x00\x00\x00") 20 0 15 11 [])
      (bytes "X")).2.size = 10 ∧
    (remove_header (mail.mk (bytes "A: b\nX: v\n\nbody\x00\x00\x00\x00\x00") 20 0 15 11 [])
      (bytes "X")).2.body = 6 :=
  ⟨by decide,
    insert_then_remove (mail.mk (bytes "A: b\n\nbody") 10 0 10 6 [])
      (mail.mk (bytes "A: b\nX: v\n\nbody\x00\x00\x00\x00\x00") 20 0 15 11 [])
      (bytes "X") (bytes "v") 5 (by decide) (by decide) (by decide) (by decide) (by decide)
      (by decide) (by decide) (by decide)⟩

/-- C2, counterexample: with a `Subject` line already in the message,
`remove_header` after the insert of `Subject: new` removes the older line, and
the content is `Subject: new` and not the original `Subject: old`. -/
theorem insert_then_remove_counterexample :
    insert_header (mail.mk (bytes "Subject: old\n") 13 0 13 (-1) []) none (bytes "Subject: new")
      = .ret (0, mail.mk (bytes "Subject: old\nSubject: new\n" ++ List.replicate 26 0)
          52 0 26 (-1) []) ∧
    (remove_header (mail.mk (bytes "Subject: old\nSubject: new\n" ++ List.replicate 26 0)
      52 0 26 (-1) []) (bytes "Subject")).1 = 0 ∧
    (remove_header (mail.mk (bytes "Subject: old\nSubject: new\n" ++ List.replicate 26 0)
      52 0 26 (-1) []) (bytes "Subject")).2.content = bytes "Subject: new\n" ∧
    (mail.mk (bytes "Subject: old\n") 13 0 13 (-1) []).content = bytes "Subject: old\n" ∧
    bytes "Subject: new\n" ≠ bytes "Subject: old\n" := by
  decide

/-- C3, instance: a 20-byte header inserted into a full 10-byte buffer doubles
the capacity twice (10, 20, 40) and keeps `A: b` and the body in place around
the new line. -/
theorem insert_header_content_witness :
    insert_header (mail.mk (bytes "A: b\n\nbody") 10 0 10 6 []) none
        (bytes "X-Long-Header: value")
      = .ret (0, mail.mk (bytes "A: b\nX-Long-Header: value\n\nbody" ++ List.replicate 9 0)
          40 0 31 27 []) ∧
    ∃ off, insert_offset (mail.mk (bytes "A: b\n\nbody") 10 0 10 6 []) none = some off ∧
      (mail.mk (bytes "A: b\nX-Long-Header: value\n\nbody" ++ List.replicate 9 0)
          40 0 31 27 []).content
        = (mail.mk (bytes "A: b\n\nbody") 10 0 10 6 []).content.take off
            ++ bytes "X-Long-Header: value" ++ [10]
            ++ (mail.mk (bytes "A: b\n\nbody") 10 0 10 6 []).content.drop off ∧
      (31 : Nat) = 10 + (bytes "X-Long-Header: value").length + 1 ∧ (0 : Nat) = 0 ∧
      ((6 : Int) ≠ -1 → (27 : Int) = 6 + (((bytes "X-Long-Header: value").length + 1 : Nat) : Int))
        ∧ ((6 : Int) = -1 → (27 : Int) = -1) :=
  ⟨by decide,
    insert_header_content (mail.mk (bytes "A: b\n\nbody") 10 0 10 6 [])
      (mail.mk (bytes "A: b\nX-Long-Header: value\n\nbody" ++ List.replicate 9 0) 40 0 31 27 [])
      none (bytes "X-Long-Header: value") (by decide) (by decide) (by decide)⟩

/-! ## Fold points -/

theorem fill_wrapped_loop_newlines (d : List Nat) (size e : Nat) :
    ∀ (fuel ptr : Nat) (w : List Nat) (n : Nat), (∀ x ∈ w, rd d x = 10) →
      ∀ x ∈ (fill_wrapped_loop d size e fuel ptr w n).1, rd d x = 10 := by
  intro fuel
  induction fuel with
  | zero => intro ptr w n hw; simpa [fill_wrapped_loop] using hw
  | succ fuel ih =>
    intro ptr w n hw
    unfold fill_wrapped_loop
    cases hm : memchr d ptr 10 (size - ptr) with
    | none => simpa using hw
    | some p =>
      simp only
      obtain ⟨_, _, hp, _⟩ := memchr_some _ _ _ hm
      split
      · exact hw
      · split
        · exact ih _ _ _ hw
        · apply ih
          intro x hx
          rcases List.mem_append.mp hx with h | h
          · exact hw x h
          · simp only [List.mem_singleton] at h
            rw [h]; simpa using hp

theorem getElem?_foldl_set (o c : Nat) :
    ∀ (ws b : List Nat) (i : Nat),
      (ws.foldl (fun b w => b.set (o + w) c) b)[i]? =
        if ∃ w ∈ ws, o + w = i then b[i]?.map (fun _ => c) else b[i]? := by
  intro ws
  induction ws with
  | nil => intro b i; simp
  | cons w ws ih =>
    intro b i
    rw [List.foldl_cons, ih, List.getElem?_set']
    by_cases h1 : o + w = i <;> by_cases h2 : ∃ w' ∈ ws, o + w' = i
    · have : ∃ w' ∈ w :: ws, o + w' = i := ⟨w, List.mem_cons_self _ _, h1⟩
      rw [if_pos h2, if_pos h1, if_pos this]
      cases b[i]? <;> rfl
    · have : ∃ w' ∈ w :: ws, o + w' = i := ⟨w, List.mem_cons_self _ _, h1⟩
      rw [if_neg h2, if_pos h1, if_pos this]
      cases b[i]? <;> rfl
    · have : ∃ w' ∈ w :: ws, o + w' = i := by
        obtain ⟨w', hw', e⟩ := h2
        exact ⟨w', List.mem_cons_of_mem _ hw', e⟩
      rw [if_pos h2, if_neg h1, if_pos this]
    · have : ¬ ∃ w' ∈ w :: ws, o + w' = i := by
        rintro ⟨w', hw', e⟩
        rcases List.mem_cons.mp hw' with h | h
        · exact h1 (h ▸ e)
        · exact h2 ⟨w', h, e⟩
      rw [if_neg h2, if_neg h1, if_neg this]

/-- Writing a space and then a newline at offsets that held a newline gives the
buffer back. -/
theorem foldl_set_restore (o : Nat) (ws b : List Nat)
    (h : ∀ w ∈ ws, rd b (o + w) = 10) :
    ws.foldl (fun b w => b.set (o + w) 10) (ws.foldl (fun b w => b.set (o + w) 32) b) = b := by
  apply List.ext_getElem?
  intro i
  rw [getElem?_foldl_set, getElem?_foldl_set]
  by_cases hi : ∃ w ∈ ws, o + w = i
  · rw [if_pos hi, if_pos hi]
    obtain ⟨w, hw, e⟩ := hi
    have h10 := h w hw
    rw [e] at h10
    unfold rd at h10
    rw [List.getD_eq_getElem?_getD] at h10
    cases hb : b[i]? with
    | none => rfl
    | some x =>
      rw [hb] at h10
      simp only [Option.getD_some] at h10
      simp [h10]
  · rw [if_neg hi, if_neg hi]

/-- C4: on a message without fold points `fill_wrapped` returns, and
`set_wrapped(m, ' ')` followed by `set_wrapped(m, '\n')` gives back the whole
buffer; the length, the offset and `body` are the same after each of the three
calls. -/
theorem wrap_unwrap_symmetry (m : mail) (h : m.wrapped = []) :
    ∃ n m1, fill_wrapped m = .ret (n, m1) ∧
      (m1.base = m.base ∧ m1.size = m.size ∧ m1.off = m.off ∧ m1.body = m.body) ∧
      ((set_wrapped m1 32).size = m.size ∧ (set_wrapped m1 32).off = m.off ∧
        (set_wrapped m1 32).body = m.body) ∧
      ((set_wrapped (set_wrapped m1 32) 10).base = m.base ∧
        (set_wrapped (set_wrapped m1 32) 10).size = m.size ∧
        (set_wrapped (set_wrapped m1 32) 10).off = m.off ∧
        (set_wrapped (set_wrapped m1 32) 10).body = m.body) := by
  unfold fill_wrapped
  rw [if_neg (by simp [h])]
  refine ⟨_, _, rfl, ⟨rfl, rfl, rfl, rfl⟩, ⟨rfl, rfl, rfl⟩, ?_, rfl, rfl, rfl⟩
  unfold set_wrapped
  simp only
  apply foldl_set_restore
  intro w hw
  have := fill_wrapped_loop_newlines m.data m.size (header_end m) (m.size + 1) 0 [] 0
    (by simp) w hw
  unfold mail.data at this
  rwa [rd_drop] at this

/-- C4, instance: in `Subject: x`, `To:` folded onto a second line, the fold
point is offset 15; unwrapping and wrapping again gives the 26 bytes back. -/
theorem wrap_unwrap_symmetry_witness :
    fill_wrapped (mail.mk (bytes "Subject: x\nTo: \n a@b\n\nbody") 26 0 26 22 [])
      = .ret (1, mail.mk (bytes "Subject: x\nTo: \n a@b\n\nbody") 26 0 26 22 [15]) ∧
    set_wrapped (mail.mk (bytes "Subject: x\nTo: \n a@b\n\nbody") 26 0 26 22 [15]) 32
      = mail.mk (bytes "Subject: x\nTo:   a@b\n\nbody") 26 0 26 22 [15] ∧
    ∃ n m1, fill_wrapped (mail.mk (bytes "Subject: x\nTo: \n a@b\n\nbody") 26 0 26 22 [])
        = .ret (n, m1) ∧
      (m1.base = bytes "Subject: x\nTo: \n a@b\n\nbody" ∧ m1.size = 26 ∧ m1.off = 0 ∧
        m1.body = 22) ∧
      ((set_wrapped m1 32).size = 26 ∧ (set_wrapped m1 32).off = 0 ∧
        (set_wrapped m1 32).body = 22) ∧
      ((set_wrapped (set_wrapped m1 32) 10).base = bytes "Subject: x\nTo: \n a@b\n\nbody" ∧
        (set_wrapped (set_wrapped m1 32) 10).size = 26 ∧
        (set_wrapped (set_wrapped m1 32) 10).off = 0 ∧
        (set_wrapped (set_wrapped m1 32) 10).body = 22) :=
  ⟨by decide, by decide,
    wrap_unwrap_symmetry (mail.mk (bytes "Subject: x\nTo: \n a@b\n\nbody") 26 0 26 22 []) rfl⟩

/-! ## `trim_from` -/

theorem trim_from_eq_self_iff (m : mail) : trim_from m = m ↔ ¬ has_from_line m := by
  unfold has_from_line
  constructor
  · intro h hf
    unfold trim_from at h
    rw [if_neg hf] at h
    have h5 : 5 ≤ m.size := by
      by_contra hlt
      exact hf (Or.inl (by omega))
    cases hm : memchr m.data 0 10 m.size with
    | none =>
      rw [hm] at h
      have hoff : m.off + m.size = m.off := congrArg mail.off h
      omega
    | some p =>
      rw [hm] at h
      have hoff : m.off + (p + 1) = m.off := congrArg mail.off h
      omega
  · intro h
    rw [not_not] at h
    unfold trim_from
    rw [if_pos h]

/-- C5 (amended): trimming twice equals trimming once exactly when the message
left by the first `trim_from` does not itself begin with `From `; a second
leading `From ` line is removed by the second call. -/
theorem trim_from_twice (m : mail) :
    trim_from (trim_from m) = trim_from m ↔ ¬ has_from_line (trim_from m) :=
  trim_from_eq_self_iff (trim_from m)

/-- C5, counterexample: a message with two leading `From ` lines; the second
`trim_from` moves the offset from 7 to 14, so trimming twice differs from
trimming once in offset, length and `body`. -/
theorem trim_from_twice_counterexample :
    trim_from (mail.mk (bytes "From a\nFrom b\nrest") 18 0 18 14 [])
      = mail.mk (bytes "From a\nFrom b\nrest") 18 7 11 7 [] ∧
    trim_from (trim_from (mail.mk (bytes "From a\nFrom b\nrest") 18 0 18 14 []))
      = mail.mk (bytes "From a\nFrom b\nrest") 18 14 4 0 [] ∧
    trim_from (trim_from (mail.mk (bytes "From a\nFrom b\nrest") 18 0 18 14 []))
      ≠ trim_from (mail.mk (bytes "From a\nFrom b\nrest") 18 0 18 14 []) := by
  decide

/-! ## Case of the header name -/

theorem find_header_scan_fold (d n1 n2 : List Nat) (e : Nat)
    (h : n1.map tolower = n2.map tolower) :
    ∀ (fuel ptr : Nat), find_header_scan d n1 e fuel ptr = find_header_scan d n2 e fuel ptr := by
  have hlen : n1.length = n2.length := by
    have := congrArg List.length h
    simpa using this
  intro fuel
  induction fuel with
  | zero => intro ptr; rfl
  | succ fuel ih =>
    intro ptr
    have hn : names_line d n1 ptr ↔ names_line d n2 ptr := by
      unfold names_line
      rw [hlen, strncasecmp_fold n2.length (d.drop ptr) n1 n2 h]
    rw [find_header_scan_succ, find_header_scan_succ]
    simp only [hn, hlen, ih]

/-- C6: `find_header` does not depend on the case of the name: two names equal
after ASCII case folding give the same result, found or not, for both values
of the flag. -/
theorem find_header_case_insensitive (m : mail) (n1 n2 : List Nat) (value : Bool)
    (h : n1.map tolower = n2.map tolower) :
    find_header m n1 value = find_header m n2 value := by
  have hlen : n1.length = n2.length := by
    have := congrArg List.length h
    simpa using this
  unfold find_header
  simp only [hlen, find_header_scan_fold m.data n1 n2 (header_end m) h]

/-- C6, instance: `Subject` and `SUBJECT` on the line `Subject: x`. -/
theorem find_header_case_insensitive_witness :
    find_header (mail.mk (bytes "Subject: x\n\nbody") 16 0 16 12 []) (bytes "Subject") false
      = find_header (mail.mk (bytes "Subject: x\n\nbody") 16 0 16 12 []) (bytes "SUBJECT") false ∧
    find_header (mail.mk (bytes "Subject: x\n\nbody") 16 0 16 12 []) (bytes "SUBJECT") false
      = some (0, 10) ∧
    find_header (mail.mk (bytes "Subject: x\n\nbody") 16 0 16 12 []) (bytes "SUBJECT") true
      = some (9, 1) :=
  ⟨find_header_case_insensitive (mail.mk (bytes "Subject: x\n\nbody") 16 0 16 12 [])
      (bytes "Subject") (bytes "SUBJECT") false (by decide),
    by decide, by decide⟩

/-! ## `find_address` -/

theorem addr_run_full (valid : Nat → Bool) (d : List Nat) :
    ∀ (n s : Nat), (∀ k, k < n → valid (rd d (s + k)) = true) → addr_run valid d s n = n := by
  intro n
  induction n with
  | zero => intro s _; rfl
  | succ n ih =>
    intro s h
    unfold addr_run
    have h0 := h 0 (by omega)
    rw [Nat.add_zero] at h0
    rw [if_pos h0, ih (s + 1) (fun k hk => by
      have := h (k + 1) (by omega)
      rwa [show s + (k + 1) = s + 1 + k by omega] at this)]

/-- The first loop of `find_address` on `P < A > R`: it walks over `P`, which
has no quote and no `<`, and returns the span between the brackets. -/
theorem find_address_scan_bracketed (valid : Nat → Bool) (P A tail : List Nat) (len : Nat)
    (hq : 34 ∉ P) (hl : 60 ∉ P) (hA : ∀ c ∈ A, valid c = true) (hgt : valid 62 = false)
    (hat : 64 ∈ A) (hfirst : A.head? ≠ some 64) (hlast : A.getLast? ≠ some 64)
    (hlen : P.length + 1 + A.length + 1 ≤ len) :
    ∀ (fuel off : Nat), off ≤ P.length → P.length - off < fuel →
      find_address_scan valid (P ++ 60 :: (A ++ 62 :: tail)) len fuel off
        = .inl (P.length + 1, A.length) := by
  have hP : ∀ i, i < P.length → rd (P ++ 60 :: (A ++ 62 :: tail)) i = rd P i :=
    fun i hi => rd_append_left _ _ _ hi
  have hlt : rd (P ++ 60 :: (A ++ 62 :: tail)) P.length = 60 := by
    rw [← Nat.add_zero P.length, rd_append_right]; rfl
  have hAr : ∀ k, k < A.length →
      rd (P ++ 60 :: (A ++ 62 :: tail)) (P.length + 1 + k) = rd A k := fun k hk => by
    rw [Nat.add_assoc, rd_append_right, Nat.add_comm 1 k, rd_cons_succ, rd_append_left _ _ _ hk]
  have hgtr : rd (P ++ 60 :: (A ++ 62 :: tail)) (P.length + 1 + A.length) = 62 := by
    rw [Nat.add_assoc, rd_append_right, Nat.add_comm 1 A.length, rd_cons_succ,
      ← Nat.add_zero A.length, rd_append_right]
    rfl
  have hpos : 0 < A.length := List.length_pos_of_mem hat
  have hA0 : rd A 0 ≠ 64 := by
    intro h
    apply hfirst
    rw [List.head?_eq_getElem?]
    unfold rd at h
    rw [List.getD_eq_getElem _ _ hpos] at h
    rw [List.getElem?_eq_getElem hpos, h]
  have hAl : rd A (A.length - 1) ≠ 64 := by
    intro h
    apply hlast
    rw [List.getLast?_eq_getElem?]
    unfold rd at h
    rw [List.getD_eq_getElem _ _ (by omega)] at h
    rw [List.getElem?_eq_getElem (by omega), h]
  intro fuel
  induction fuel with
  | zero => intro off _ h; omega
  | succ fuel ih =>
    intro off hoff hf
    conv_lhs => rw [find_address_scan]
    rw [if_pos (by omega)]
    by_cases hlt' : off < P.length
    · have hmem : rd P off ∈ P := rd_mem P off hlt'
      have h34 : rd (P ++ 60 :: (A ++ 62 :: tail)) off ≠ 34 := by
        rw [hP off hlt']; intro h; exact hq (h ▸ hmem)
      have h60 : rd (P ++ 60 :: (A ++ 62 :: tail)) off ≠ 60 := by
        rw [hP off hlt']; intro h; exact hl (h ▸ hmem)
      rw [if_neg h34, if_neg h60]
      exact ih (off + 1) (by omega) (by omega)
    · have hoffeq : off = P.length := by omega
      subst hoffeq
      rw [hlt, if_neg (by decide), if_pos rfl]
      simp only
      have hm : memchr (P ++ 60 :: (A ++ 62 :: tail)) (P.length + 1) 62 (len - (P.length + 1))
          = some (P.length + 1 + A.length) := by
        apply memchr_first _ _ _ (by omega) (by omega) hgtr
        intro j hj1 hj2
        obtain ⟨k, rfl⟩ : ∃ k, j = P.length + 1 + k := ⟨j - (P.length + 1), by omega⟩
        rw [hAr k (by omega)]
        intro h
        have := hA _ (rd_mem A k (by omega))
        rw [h, hgt] at this
        cases this
      rw [hm]
      simp only
      have hal : P.length + 1 + A.length - (P.length + 1) = A.length := by omega
      rw [hal]
      have hrun : addr_run valid (P ++ 60 :: (A ++ 62 :: tail)) (P.length + 1) A.length
          = A.length :=
        addr_run_full valid _ _ _ (fun k hk => by
          rw [hAr k hk]; exact hA _ (rd_mem A k hk))
      rw [hrun, if_neg (by simp)]
      have hat' : memchr (P ++ 60 :: (A ++ 62 :: tail)) (P.length + 1) 64 A.length ≠ none := by
        obtain ⟨k, hk, hk64⟩ : ∃ k, k < A.length ∧ rd A k = 64 := by
          obtain ⟨k, hk, e⟩ := List.getElem_of_mem hat
          refine ⟨k, hk, ?_⟩
          unfold rd
          rw [List.getD_eq_getElem _ _ hk, e]
        obtain ⟨q, hq', _⟩ := memchr_exists (p := P ++ 60 :: (A ++ 62 :: tail)) (c := 64) A.length
          (P.length + 1) (P.length + 1 + k) (by omega) (by omega) (by rw [hAr k hk]; exact hk64)
        rw [hq']; simp
      rw [if_neg (by
        intro h
        rcases h with h | h
        · omega
        · exact hat' h)]
      have h1 : rd (P ++ 60 :: (A ++ 62 :: tail)) (P.length + 1) ≠ 64 := by
        have := hAr 0 hpos
        rw [Nat.add_zero] at this
        rw [this]; exact hA0
      have h2 : rd (P ++ 60 :: (A ++ 62 :: tail)) (P.length + 1 + A.length - 1) ≠ 64 := by
        rw [show P.length + 1 + A.length - 1 = P.length + 1 + (A.length - 1) by omega,
          hAr _ (by omega)]
        exact hAl
      rw [if_neg (by
        intro h
        rcases h with h | h
        · exact h1 h
        · exact h2 h)]

/-- C7: on an input `P < A > R`, where `P` has neither a quote nor `<` and `A`
consists of valid address characters (the closing bracket is not one), has an
`@` and neither starts nor ends with one, `find_address` returns the span `A`:
offset `|P| + 1`, length `|A|`, whatever bytes follow the input. -/
theorem find_address_bracketed (valid : Nat → Bool) (P A R rest : List Nat)
    (hq : 34 ∉ P) (hl : 60 ∉ P) (hA : ∀ c ∈ A, valid c = true) (hgt : valid 62 = false)
    (hat : 64 ∈ A) (hfirst : A.head? ≠ some 64) (hlast : A.getLast? ≠ some 64) :
    find_address valid (P ++ 60 :: (A ++ 62 :: (R ++ rest)))
        (P.length + 1 + A.length + 1 + R.length)
      = some (P.length + 1, A.length) := by
  unfold find_address
  rw [find_address_scan_bracketed valid P A (R ++ rest) _ hq hl hA hgt hat hfirst hlast
    (by omega) _ 0 (by omega) (by omega)]

/-- C7, instance: `John <john@example.com>` gives `john@example.com`, offset 6
and length 16. -/
theorem find_address_bracketed_witness :
    find_address isaddr (bytes "John <john@example.com>") 23 = some (6, 16) ∧
      ((bytes "John <john@example.com>").drop 6).take 16 = bytes "john@example.com" :=
  ⟨find_address_bracketed isaddr (bytes "John ") (bytes "john@example.com") [] []
      (by decide) (by decide) (by decide) (by decide) (by decide) (by decide) (by decide),
    by decide⟩

/-- C8: the fallback of `find_address` looks for `@` in the bytes after the
input (`hdr + off` with `off = len`), not in the input: `plain@example.com`
alone in memory, or followed by the blank line and the body, gives NULL; it is
returned only when an `@` follows it in memory. -/
theorem find_address_bare_depends_on_memory :
    find_address isaddr (bytes "plain@example.com") 17 = none ∧
    find_address isaddr (bytes "plain@example.com\n\nHello, this is the body") 17 = none ∧
    find_address isaddr (bytes "plain@example.com\nCc: x@y.com") 17 = some (0, 17) := by
  decide

/-- C9: the fallback of `find_address` returns a span without `@` when an `@`
follows the input in memory: for the ten bytes `no-at-sign` followed by the
next header line `Cc: x@y.com` the result is the span `no-at-sign`. -/
theorem find_address_returns_span_without_at :
    find_address isaddr (bytes "no-at-sign\nCc: x@y.com") 10 = some (0, 10) ∧
    ((bytes "no-at-sign\nCc: x@y.com").drop 0).take 10 = bytes "no-at-sign" ∧
    64 ∉ bytes "no-at-sign" := by
  decide

/-- C10: after the closing quote `find_address` skips one more byte, so the
`<` right after the quote is not seen: `"J"<a@b>` gives NULL, while with a
space before the `<` the address is found. -/
theorem find_address_skips_byte_after_quote :
    find_address isaddr (bytes "\"J\"<a@b>") 8 = none ∧
    find_address isaddr (bytes "\"J\" <a@b>") 9 = some (5, 3) := by
  decide

/-! ## A name followed by a byte that is not a space -/

/-- C11 (amended): when the first line of the header region that begins with
the name (ignoring case) and a colon has a byte that is not white space after
the colon, `find_header` returns NULL for both values of the flag, whatever
lines follow; a later well-formed line of that name is not returned. -/
theorem find_header_malformed_first (m : mail) (hdr : List Nat) (value : Bool) (o : Nat)
    (hfit : o + hdr.length + 1 ≤ header_end m) (hls : line_start m.data o)
    (hm : names_line m.data hdr o)
    (hno : ∀ p, p < o → line_start m.data p → ¬ names_line m.data hdr p)
    (hsp : isspace (rd m.data (o + hdr.length + 1)) = false) :
    find_header m hdr value = none := by
  unfold find_header
  simp only
  rw [if_neg (by omega),
    find_header_scan_reaches m.data hdr (header_end m) o hfit hls hm hno (header_end m) 0
      (by omega) (Or.inl rfl) (by omega)]
  simp only
  have hsp' : isspace (rd m.data (o + (hdr.length + 1))) = false := by
    rw [← Nat.add_assoc]; exact hsp
  simp [hsp']

/-- C11, instance: in `X:a` followed by `X: b` the first line decides and the
result is NULL. -/
theorem find_header_malformed_first_witness :
    find_header (mail.mk (bytes "X:a\nX: b\n") 9 0 9 (-1) []) (bytes "X") false = none :=
  find_header_malformed_first (mail.mk (bytes "X:a\nX: b\n") 9 0 9 (-1) []) (bytes "X") false 0
    (by decide) (by decide) (by decide) (by decide) (by decide)

/-- C11, counterexample: the header region holds the line `X:a` and the later
well-formed line `X: b` at offset 4, and `find_header` returns NULL, not the
later line. -/
theorem find_header_malformed_counterexample :
    names_line (mail.mk (bytes "X:a\nX: b\n") 9 0 9 (-1) []).data (bytes "X") 0 ∧
    isspace (rd (mail.mk (bytes "X:a\nX: b\n") 9 0 9 (-1) []).data 2) = false ∧
    line_start (mail.mk (bytes "X:a\nX: b\n") 9 0 9 (-1) []).data 4 ∧
    names_line (mail.mk (bytes "X:a\nX: b\n") 9 0 9 (-1) []).data (bytes "X") 4 ∧
    isspace (rd (mail.mk (bytes "X:a\nX: b\n") 9 0 9 (-1) []).data 6) = true ∧
    find_header (mail.mk (bytes "X:a\nX: b\n") 9 0 9 (-1) []) (bytes "X") false = none ∧
    find_header (mail.mk (bytes "X:a\nX: b\n") 9 0 9 (-1) []) (bytes "X") false
      ≠ some (4, 4) := by
  decide

/-! ## The value of a header -/

/-- C12: the loop that strips white space in `find_header` does not stop at
the end of the line: for the line `X: ` (value empty) followed by `Y: z` the
value returned for `X` starts at offset 4, in the line of `Y`, and its length
has wrapped to `SIZE_MAX`; for `To: ` folded onto ` a@b` the length is
`SIZE_MAX - 1`. -/
theorem find_header_value_leaves_line :
    find_header (mail.mk (bytes "X: \nY: z\n") 9 0 9 (-1) []) (bytes "X") true
      = some (4, SIZE_MAX) ∧
    find_header (mail.mk (bytes "X: \nY: z\n") 9 0 9 (-1) []) (bytes "X") false
      = some (0, 3) ∧
    find_header (mail.mk (bytes "Subject: x\nTo: \n a@b\n\nbody") 26 0 26 22 []) (bytes "to") true
      = some (17, SIZE_MAX - 1) := by
  decide

/-! ## The offset of an insert at the end of the header block -/

theorem insert_offset_none_eq {m : mail} {off : Nat} (hwf : m.wf)
    (h : insert_offset m none = some off) :
    (m.body = -1 → off = m.size) ∧ (m.body = 0 → off = 0) ∧
      (1 ≤ m.body → (off : Int) = m.body - 1) := by
  obtain ⟨h1, h2, h3, h4⟩ := hwf
  unfold insert_offset at h
  simp only at h
  split at h
  · rename_i hb
    simp only [Option.some.injEq] at h
    exact ⟨fun _ => h.symm, fun h0 => by omega, fun h1 => by omega⟩
  · rename_i hb
    split at h
    · rename_i hlt
      simp only [Option.some.injEq] at h
      exact ⟨fun h0 => absurd h0 hb, fun _ => h.symm, fun h1 => by omega⟩
    · rename_i hge
      simp only [Option.some.injEq] at h
      rcases h4 with h4 | ⟨h5, h6⟩
      · contradiction
      · have hs : (m.size : Int) ≤ (SIZE_MAX : Nat) := by
          exact_mod_cast (by omega : m.size ≤ SIZE_MAX)
        have := to_size_eq (x := m.body - 1) (by omega) (by omega)
        exact ⟨fun h0 => absurd h0 hb, fun h0 => by omega, fun _ => by omega⟩

/-- C13 (amended): a successful `insert_header` with no `before` header on a
well-formed message puts the new line at offset `length` when `body` is
unknown, at offset 0 when `body` is 0, and at offset `body - 1` (before the
last byte of the header block, the newline of the blank line) when `body` is
at least 1. -/
theorem insert_header_end_offset (m m' : mail) (T : List Nat)
    (hwf : m.wf) (hfit : m.size + (T.length + 1) ≤ SIZE_MAX)
    (h : insert_header m none T = .ret (0, m')) :
    ∃ off, m'.content = m.content.take off ++ T ++ [10] ++ m.content.drop off ∧
      (m.body = -1 → off = m.size) ∧ (m.body = 0 → off = 0) ∧
      (1 ≤ m.body → (off : Int) = m.body - 1) := by
  obtain ⟨off, R, e1, e2, e3, e4, e5, e6, e7, e8⟩ := insert_header_ret hwf hfit h
  have hC : m.content.length = m.size := by
    obtain ⟨w1, w2, w3, w4⟩ := hwf
    unfold mail.content mail.data; simp; omega
  refine ⟨off, ?_, insert_offset_none_eq hwf e1⟩
  show m'.data.take m'.size = _
  rw [e3, e4]
  have : m.content.take off ++ (T ++ 10 :: (m.content.drop off ++ R))
      = (m.content.take off ++ T ++ [10] ++ m.content.drop off) ++ R := by
    simp
  rw [this]
  apply List.take_left'
  simp [hC]
  omega

/-- C13, instance: with `body` at 6 in `A: b`, blank line, `body`, the line
`X: v` goes to offset 5, before the blank line. -/
theorem insert_header_end_offset_witness :
    ∃ off, (mail.mk (bytes "A: b\nX: v\n\nbody\x00\x00\x00\x00\x00") 20 0 15 11 []).content
        = (mail.mk (bytes "A: b\n\nbody") 10 0 10 6 []).content.take off ++ bytes "X: v" ++ [10]
          ++ (mail.mk (bytes "A: b\n\nbody") 10 0 10 6 []).content.drop off ∧
      ((6 : Int) = -1 → off = 10) ∧ ((6 : Int) = 0 → off = 0) ∧
      (1 ≤ (6 : Int) → (off : Int) = 6 - 1) :=
  insert_header_end_offset (mail.mk (bytes "A: b\n\nbody") 10 0 10 6 [])
    (mail.mk (bytes "A: b\nX: v\n\nbody\x00\x00\x00\x00\x00") 20 0 15 11 []) (bytes "X: v")
    (by decide) (by decide) (by decide)

/-- C13, counterexample: with `body` known and equal to 6 the offset computed
is 5, and the content after the insert is not the old content with the line
put at offset 6. -/
theorem insert_header_end_offset_counterexample :
    insert_offset (mail.mk (bytes "A: b\n\nbody") 10 0 10 6 []) none = some 5 ∧
    insert_header (mail.mk (bytes "A: b\n\nbody") 10 0 10 6 []) none (bytes "X: v")
      = .ret (0, mail.mk (bytes "A: b\nX: v\n\nbody\x00\x00\x00\x00\x00") 20 0 15 11 []) ∧
    (mail.mk (bytes "A: b\nX: v\n\nbody\x00\x00\x00\x00\x00") 20 0 15 11 []).content
      = bytes "A: b\nX: v\n\nbody" ∧
    (mail.mk (bytes "A: b\n\nbody") 10 0 10 6 []).content.take 6 ++ bytes "X: v" ++ [10]
        ++ (mail.mk (bytes "A: b\n\nbody") 10 0 10 6 []).content.drop 6
      = bytes "A: b\n\nX: v\nbody" ∧
    bytes "A: b\nX: v\n\nbody" ≠ bytes "A: b\n\nX: v\nbody" := by
  decide

/-! ## Fold points across a header edit -/

/-- C14 (amended): `insert_header` and `remove_header` leave the fold points
as they were: after a successful `insert_header` and after `remove_header` the
array `wrapped` is the one before the call. -/
theorem header_edits_keep_fold_points (m m' : mail) (before : Option (List Nat))
    (T hdr : List Nat) (h : insert_header m before T = .ret (0, m')) :
    m'.wrapped = m.wrapped ∧ (remove_header m hdr).2.wrapped = m.wrapped := by
  constructor
  · unfold insert_header at h
    cases hoff : insert_offset m before with
    | none => rw [hoff] at h; simp at h
    | some off =>
      rw [hoff] at h
      simp only at h
      cases hr : resize_mail m (add64 m.size (T.length + 1)) with
      | fatal => rw [hr] at h; cases h
      | hang => rw [hr] at h; cases h
      | ret m1 =>
        rw [hr] at h
        simp only [Outcome.ret.injEq, Prod.mk.injEq, true_and] at h
        obtain ⟨_, _, _, r4, _⟩ := resize_mail_ret hr
        rw [← h]
        exact r4
  · unfold remove_header
    split
    · rfl
    · rfl

/-- C14, instance: the fold point 15 of a message with a folded `To` line is
still recorded after `X: v` is inserted and after `Subject` is removed. -/
theorem header_edits_keep_fold_points_witness :
    insert_header (mail.mk (bytes "Subject: x\nTo: \n a@b\n\nbody") 26 0 26 22 [15]) none
        (bytes "X: v")
      = .ret (0, mail.mk (bytes "Subject: x\nTo: \n a@b\nX: v\n\nbody" ++ List.replicate 21 0)
          52 0 31 27 [15]) ∧
    (mail.mk (bytes "Subject: x\nTo: \n a@b\nX: v\n\nbody" ++ List.replicate 21 0)
      52 0 31 27 [15]).wrapped = [15] ∧
    (remove_header (mail.mk (bytes "Subject: x\nTo: \n a@b\n\nbody") 26 0 26 22 [15])
      (bytes "Subject")).2.wrapped = [15] :=
  ⟨by decide,
    header_edits_keep_fold_points (mail.mk (bytes "Subject: x\nTo: \n a@b\n\nbody") 26 0 26 22 [15])
      (mail.mk (bytes "Subject: x\nTo: \n a@b\nX: v\n\nbody" ++ List.replicate 21 0)
        52 0 31 27 [15])
      none (bytes "X: v") (bytes "Subject") (by decide)⟩

/-- C14, counterexample: after `Subject` is removed from a message whose fold
point is 15, the array still holds 15, which is no longer the offset of the
fold (that newline is now at offset 4); it is not empty. -/
theorem header_edits_keep_fold_points_counterexample :
    (remove_header (mail.mk (bytes "Subject: x\nTo: \n a@b\n\nbody") 26 0 26 22 [15])
      (bytes "Subject")).1 = 0 ∧
    (remove_header (mail.mk (bytes "Subject: x\nTo: \n a@b\n\nbody") 26 0 26 22 [15])
      (bytes "Subject")).2.wrapped = [15] ∧
    (remove_header (mail.mk (bytes "Subject: x\nTo: \n a@b\n\nbody") 26 0 26 22 [15])
      (bytes "Subject")).2.content = bytes "To: \n a@b\n\nbody" ∧
    (remove_header (mail.mk (bytes "Subject: x\nTo: \n a@b\n\nbody") 26 0 26 22 [15])
      (bytes "Subject")).2.wrapped ≠ [] ∧
    insert_header (mail.mk (bytes "Subject: x\nTo: \n a@b\n\nbody") 26 0 26 22 [15]) none
        (bytes "X: v")
      = .ret (0, mail.mk (bytes "Subject: x\nTo: \n a@b\nX: v\n\nbody" ++ List.replicate 21 0)
          52 0 31 27 [15]) := by
  decide

/-! ## The invariants under the mutating operations -/

theorem resize_loop_ge (t : Nat) :
    ∀ (fuel : Nat) (b : List Nat) (s : Nat) (b' : List Nat) (s' : Nat),
      resize_loop t fuel b s = .ret (b', s') → s ≤ s' := by
  intro fuel b s b' s' h
  cases fuel with
  | zero => simp [resize_loop] at h
  | succ fuel =>
    unfold resize_loop at h
    by_cases hs : s ≤ t
    · rw [if_pos hs] at h
      obtain ⟨_, h2, _, _⟩ := resize_loop_ret t _ _ _ _ _ h
      omega
    · rw [if_neg hs] at h
      simp only [Outcome.ret.injEq, Prod.mk.injEq] at h
      omega

/-- The capacity never decreases in `resize_mail`, and a well-formed message
stays well-formed. -/
theorem resize_mail_wf {m m1 : mail} {n : Nat} (h : resize_mail m n = .ret m1) (hwf : m.wf) :
    m.space ≤ m1.space ∧ m1.wf := by
  obtain ⟨r1, r2, r3, r4, r5, r6, r7, r8⟩ := resize_mail_ret h
  have hge : m.space ≤ m1.space := by
    unfold resize_mail at h
    split at h
    · cases h
    · split at h
      · rename_i b s hl
        simp only [Outcome.ret.injEq] at h
        subst h
        exact resize_loop_ge _ _ _ _ _ _ hl
      · cases h
      · cases h
  obtain ⟨w1, w2, w3, w4⟩ := hwf
  exact ⟨hge, r7 w1, by omega, r8 w3, by rw [r2, r3]; exact w4⟩

/-- The function `trim_from` keeps the end of the message where it was, so the
message stays inside the capacity. -/
theorem trim_from_end (m : mail) :
    (trim_from m).off + (trim_from m).size = m.off + m.size ∧
      (trim_from m).space = m.space ∧ (trim_from m).base = m.base := by
  unfold trim_from
  split
  · exact ⟨rfl, rfl, rfl⟩
  · refine ⟨?_, rfl, rfl⟩
    simp only
    cases hm : memchr m.data 0 10 m.size with
    | none => simp only; omega
    | some p =>
      obtain ⟨_, hp, _, _⟩ := memchr_some _ _ _ hm
      show m.off + (p + 1) + (m.size - (p + 1)) = m.off + m.size
      omega

/-- C16: `remove_header` breaks the invariants when the header found is the
last line of a message that does not end in a newline: for the four bytes
`X: v` the length wraps from 4 to `SIZE_MAX`, beyond the capacity 4.  And
`trim_from` makes a known `body` negative when it lies inside the `From `
line. -/
theorem remove_header_breaks_invariants :
    (mail.mk (bytes "X: v") 4 0 4 (-1) []).wf ∧
    remove_header (mail.mk (bytes "X: v") 4 0 4 (-1) []) (bytes "X")
      = (0, mail.mk (bytes "X: v") 4 0 SIZE_MAX (-1) []) ∧
    ¬ (0 + SIZE_MAX ≤ 4) ∧
    ¬ (mail.mk (bytes "X: v") 4 0 SIZE_MAX (-1) []).wf ∧
    (mail.mk (bytes "From x\nA: b\n") 12 0 12 3 []).wf ∧
    trim_from (mail.mk (bytes "From x\nA: b\n") 12 0 12 3 [])
      = mail.mk (bytes "From x\nA: b\n") 12 7 5 (-4) [] ∧
    ¬ (mail.mk (bytes "From x\nA: b\n") 12 7 5 (-4) []).wf := by
  decide

/-! ## The capacity after `resize_mail` -/

theorem resize_loop_doubles (t : Nat) :
    ∀ (k fuel : Nat) (b : List Nat) (s : Nat), k < fuel → s * 2 ^ k ≤ SIZE_MAX →
      t < s * 2 ^ k → (∀ j, j < k → s * 2 ^ j ≤ t) →
      ∃ Z, resize_loop t fuel b s = .ret (b ++ Z, s * 2 ^ k) := by
  intro k
  induction k with
  | zero =>
    intro fuel b s hf _ ht _
    cases fuel with
    | zero => omega
    | succ fuel =>
      unfold resize_loop
      rw [if_neg (by simpa using ht)]
      exact ⟨[], by simp⟩
  | succ k ih =>
    intro fuel b s hf hmax ht hleast
    cases fuel with
    | zero => omega
    | succ fuel =>
      have h0 : s ≤ t := by simpa using hleast 0 (by omega)
      have hpow : s * 2 ^ (k + 1) = s * 2 * 2 ^ k := by rw [pow_succ]; ring
      have h2k : 1 ≤ 2 ^ k := Nat.one_le_two_pow
      have hs2 : s * 2 ≤ SIZE_MAX := by
        calc s * 2 = s * 2 * 1 := by omega
          _ ≤ s * 2 * 2 ^ k := Nat.mul_le_mul_left _ h2k
          _ ≤ SIZE_MAX := by rw [← hpow]; exact hmax
      have hmod : s * 2 % 2 ^ 64 = s * 2 := by
        unfold SIZE_MAX at hs2
        exact Nat.mod_eq_of_lt (by omega)
      unfold resize_loop
      rw [if_pos h0, hmod]
      obtain ⟨Z, hZ⟩ := ih fuel (shm_realloc b 2 s) (s * 2) (by omega) (by rw [← hpow]; exact hmax)
        (by rw [← hpow]; exact ht)
        (fun j hj => by
          have := hleast (j + 1) (by omega)
          rw [pow_succ] at this
          calc s * 2 * 2 ^ j = s * (2 ^ j * 2) := by ring
            _ ≤ t := this)
      refine ⟨List.replicate (2 * s - b.length) 0 ++ Z, ?_⟩
      rw [hZ, hpow]
      unfold shm_realloc
      simp

/-- C17 (amended): when `n` passes the overflow test and `k` is the least number
with `capacity * 2 ^ k > offset + n`, that capacity fitting a `size_t`,
`resize_mail(m, n)` returns with the capacity `capacity * 2 ^ k`, not below the
old one; the old allocation is a prefix of the new one, and the offset, the
length, `body` and, for a well-formed message, the content are unchanged. -/
theorem resize_mail_doubles (m : mail) (n k : Nat) (hn : n ≤ SIZE_MAX - m.off)
    (hk : m.space * 2 ^ k ≤ SIZE_MAX) (hgt : m.off + n < m.space * 2 ^ k)
    (hleast : ∀ j, j < k → m.space * 2 ^ j ≤ m.off + n) :
    ∃ m', resize_mail m n = .ret m' ∧ m'.space = m.space * 2 ^ k ∧ m.space ≤ m'.space ∧
      m'.off = m.off ∧ m'.size = m.size ∧ m'.body = m.body ∧ m'.wrapped = m.wrapped ∧
      (∃ Z, m'.base = m.base ++ Z) ∧ (m.wf → m'.content = m.content) := by
  have hpos : 0 < m.space := by
    by_contra h0
    have : m.space = 0 := by omega
    rw [this] at hgt
    simp at hgt
  have hk64 : k < 65 := by
    by_contra hge
    have h1 : 2 ^ 65 ≤ 2 ^ k := Nat.pow_le_pow_right (by norm_num) (by omega)
    have h2 : 2 ^ k ≤ m.space * 2 ^ k := Nat.le_mul_of_pos_left _ hpos
    unfold SIZE_MAX at hk
    have h3 : (2 : Nat) ^ 65 = 2 * 2 ^ 64 := by norm_num
    omega
  obtain ⟨Z, hZ⟩ := resize_loop_doubles (m.off + n) k 65 m.base m.space hk64 hk hgt hleast
  have hret : resize_mail m n
      = .ret { m with base := m.base ++ Z, space := m.space * 2 ^ k } := by
    unfold resize_mail
    rw [if_neg (by omega), hZ]
  refine ⟨_, hret, rfl, ?_, rfl, rfl, rfl, rfl, ⟨Z, rfl⟩, ?_⟩
  · show m.space ≤ m.space * 2 ^ k
    exact Nat.le_mul_of_pos_right _ (Nat.two_pow_pos k)
  · intro hwf
    obtain ⟨w1, w2, w3, w4⟩ := hwf
    show ((m.base ++ Z).drop m.off).take m.size = (m.base.drop m.off).take m.size
    rw [List.drop_append_of_le_length (by omega), List.take_append_of_le_length (by simp; omega)]

/-- C17, instance: a request of 31 bytes on a capacity of 10 doubles twice,
to 40. -/
theorem resize_mail_doubles_witness :
    ∃ m', resize_mail (mail.mk (bytes "A: b\n\nbody") 10 0 10 6 []) 31 = .ret m' ∧
      m'.space = 10 * 2 ^ 2 ∧ 10 ≤ m'.space ∧ m'.off = 0 ∧ m'.size = 10 ∧ m'.body = 6 ∧
      m'.wrapped = [] ∧ (∃ Z, m'.base = bytes "A: b\n\nbody" ++ Z) ∧
      ((mail.mk (bytes "A: b\n\nbody") 10 0 10 6 []).wf →
        m'.content = (mail.mk (bytes "A: b\n\nbody") 10 0 10 6 []).content) :=
  resize_mail_doubles (mail.mk (bytes "A: b\n\nbody") 10 0 10 6 []) 31 2
    (by decide) (by decide) (by decide) (by decide)

/-- C17, counterexample: with capacity 12, length 10 and a request of 5 the
capacity stays 12, although 12 is not above length + 5, because the loop
compares the capacity with offset + 5; and with capacity 0 a request of 1
passes the overflow test and the loop never ends. -/
theorem resize_mail_doubles_counterexample :
    resize_mail (mail.mk (bytes "A: b\n\nbody\x00\x00") 12 0 10 6 []) 5
      = .ret (mail.mk (bytes "A: b\n\nbody\x00\x00") 12 0 10 6 []) ∧
    ¬ (12 > 10 + 5) ∧ (12 : Nat) ≠ 12 * 2 ^ 1 ∧
    ¬ (SIZE_MAX - 0 < 1) ∧
    resize_mail (mail.mk [] 0 0 0 (-1) []) 1 = .hang := by
  decide

/-! ## The bytes `find_header` looks at -/

/-- C20: `find_header` looks at the byte at the end of the header region: two
messages with the same two bytes `X:` in the region (length 2, `body` unknown)
and a different byte after it give different results, and with nothing
allocated after the region the byte read lies outside the allocation. -/
theorem find_header_reads_past_region :
    header_end (mail.mk (bytes "X: ") 3 0 2 (-1) []) = 2 ∧
    header_end (mail.mk (bytes "X:a") 3 0 2 (-1) []) = 2 ∧
    (mail.mk (bytes "X: ") 3 0 2 (-1) []).content
      = (mail.mk (bytes "X:a") 3 0 2 (-1) []).content ∧
    find_header (mail.mk (bytes "X: ") 3 0 2 (-1) []) (bytes "X") false = some (0, 2) ∧
    find_header (mail.mk (bytes "X:a") 3 0 2 (-1) []) (bytes "X") false = none ∧
    (mail.mk (bytes "X:") 2 0 2 (-1) []).wf ∧
    find_header_scan (mail.mk (bytes "X:") 2 0 2 (-1) []).data (bytes "X") 2 2 0 = some 0 ∧
    ¬ (0 + (bytes "X").length + 1 < 2) := by
  decide

/-! ## The line iterator -/

theorem line_init_is_line (m : mail) (h : 0 < m.size) :
    (line_init m).1 = 0 ∧ is_line m.data m.size (line_init m) := by
  unfold line_init is_line
  cases hm : memchr m.data 0 10 m.size with
  | none =>
    refine ⟨rfl, h, by simp, fun j _ hj => memchr_none _ _ hm j (by omega) ?_, fun hlt => ?_⟩
    · simp only at hj; omega
    · simp only at hlt; omega
  | some p =>
    obtain ⟨h1, h2, h3, h4⟩ := memchr_some _ _ _ hm
    refine ⟨rfl, by simp, ?_, fun j hj1 hj2 => h4 j (by omega) ?_, fun _ => ?_⟩
    · show 0 + (p - 0 + 1) ≤ m.size
      omega
    · have key : j < 0 + (p - 0 + 1) - 1 := hj2
      omega
    · show rd m.data (0 + (p - 0 + 1) - 1) = 10
      rw [show 0 + (p - 0 + 1) - 1 = p by omega]
      exact h3

theorem line_next_is_line (m : mail) (hs : m.size ≤ SIZE_MAX) (x : Nat × Nat)
    (hx : is_line m.data m.size x) :
    (x.1 + x.2 = m.size → line_next m x.1 x.2 = none) ∧
      (x.1 + x.2 < m.size →
        ∃ y, line_next m x.1 x.2 = some y ∧ y.1 = x.1 + x.2 ∧ is_line m.data m.size y) := by
  obtain ⟨hx1, hx2, hx3, hx4⟩ := hx
  constructor
  · intro he
    unfold line_next
    rw [if_pos he]
  · intro hlt
    unfold line_next
    rw [if_neg (by omega), sub64_eq (by omega) hs]
    cases hm : memchr m.data (x.1 + x.2) 10 (m.size - (x.1 + x.2)) with
    | none =>
      refine ⟨_, rfl, rfl, ?_, ?_, ?_, ?_⟩
      · show 1 ≤ m.size - (x.1 + x.2)
        omega
      · show x.1 + x.2 + (m.size - (x.1 + x.2)) ≤ m.size
        omega
      · intro j hj1 hj2
        have k1 : x.1 + x.2 ≤ j := hj1
        have k2 : j < x.1 + x.2 + (m.size - (x.1 + x.2)) - 1 := hj2
        exact memchr_none _ _ hm j k1 (by omega)
      · intro h
        have k : x.1 + x.2 + (m.size - (x.1 + x.2)) < m.size := h
        omega
    | some p =>
      obtain ⟨h1, h2, h3, h4⟩ := memchr_some _ _ _ hm
      refine ⟨_, rfl, rfl, ?_, ?_, ?_, ?_⟩
      · show 1 ≤ p - (x.1 + x.2) + 1
        omega
      · show x.1 + x.2 + (p - (x.1 + x.2) + 1) ≤ m.size
        omega
      · intro j hj1 hj2
        have k1 : x.1 + x.2 ≤ j := hj1
        have k2 : j < x.1 + x.2 + (p - (x.1 + x.2) + 1) - 1 := hj2
        exact h4 j k1 (by omega)
      · intro _
        show rd m.data (x.1 + x.2 + (p - (x.1 + x.2) + 1) - 1) = 10
        rw [show x.1 + x.2 + (p - (x.1 + x.2) + 1) - 1 = p by omega]
        exact h3

theorem line_iter_partition (m : mail) (hs : m.size ≤ SIZE_MAX) :
    ∀ (fuel : Nat) (x : Nat × Nat), is_line m.data m.size x → m.size - x.1 < fuel →
      line_partition m.data x.1 m.size (line_iter m fuel x) := by
  intro fuel
  induction fuel with
  | zero => intro x _ h; omega
  | succ fuel ih =>
    intro x hx hf
    obtain ⟨hnone, hsome⟩ := line_next_is_line m hs x hx
    obtain ⟨hx1, hx2, hx3, hx4⟩ := hx
    unfold line_iter
    by_cases hend : x.1 + x.2 = m.size
    · rw [hnone hend]
      refine ⟨rfl, List.chain'_singleton _, ?_, ?_, ?_, ?_⟩
      · simp only [List.map_cons, List.map_nil, List.sum_cons, List.sum_nil]; omega
      · intro y hy
        rw [List.mem_singleton] at hy
        rw [hy]; exact hx1
      · intro y hy
        simp at hy
      · intro y hy
        simp only [List.getLast?_singleton, Option.some.injEq] at hy
        rw [← hy]; exact hx3
    · have hlt : x.1 + x.2 < m.size := by omega
      obtain ⟨y, hy, hy1, hyl⟩ := hsome hlt
      rw [hy]
      simp only
      obtain ⟨p1, p2, p3, p4, p5, p6⟩ := ih y hyl (by omega)
      cases hT : line_iter m fuel y with
      | nil => rw [hT] at p1; simp at p1
      | cons t ts =>
        rw [hT] at p1 p2 p3 p4 p5 p6
        have ht1 : t.1 = x.1 + x.2 := by
          simp only [List.head?_cons, Option.map_some', Option.some.injEq] at p1
          omega
        refine ⟨rfl, ?_, ?_, ?_, ?_, ?_⟩
        · refine List.chain'_cons'.mpr ⟨?_, p2⟩
          intro z hz
          simp only [List.head?_cons, Option.mem_def, Option.some.injEq] at hz
          rw [← hz]; exact ht1
        · simp only [List.map_cons, List.sum_cons] at p3 ⊢
          omega
        · intro z hz
          rcases List.mem_cons.mp hz with h | h
          · rw [h]; exact hx1
          · exact p4 z h
        · intro z hz
          rw [List.dropLast_cons₂] at hz
          rcases List.mem_cons.mp hz with h | h
          · rw [h]; exact ⟨hx4 hlt, hx3⟩
          · exact p5 z h
        · intro z hz
          rw [List.getLast?_cons_cons] at hz
          exact p6 z hz

/-- C19: for a message with non-empty content, `line_init` followed by
`line_next` until it yields NULL gives pairs that cut the content into lines:
the first start is 0, each next start is the previous start plus its length,
the lengths add up to the length of the message, every length is at least 1,
every line but the last ends with a newline and has no other, and the last
line has no newline before its final byte. -/
theorem lines_partition (m : mail) (h0 : 0 < m.size) (hs : m.size ≤ SIZE_MAX) :
    line_partition m.data 0 m.size (lines m) := by
  obtain ⟨h1, h2⟩ := line_init_is_line m h0
  have := line_iter_partition m hs (m.size + 1) (line_init m) h2 (by omega)
  rw [h1] at this
  exact this

/-- C19, instance: the six bytes `a`, newline, `bc`, newline, `d` are cut into
the lines (0, 2), (2, 3) and (5, 1). -/
theorem lines_partition_witness :
    lines (mail.mk (bytes "a\nbc\nd") 6 0 6 (-1) []) = [(0, 2), (2, 3), (5, 1)] ∧
    line_partition (mail.mk (bytes "a\nbc\nd") 6 0 6 (-1) []).data 0 6
      (lines (mail.mk (bytes "a\nbc\nd") 6 0 6 (-1) [])) :=
  ⟨by decide, lines_partition (mail.mk (bytes "a\nbc\nd") 6 0 6 (-1) []) (by decide) (by decide)⟩

/-! ## The fold points recorded by `fill_wrapped` -/

theorem filter_is_fold_nil (d : List Nat) (e a k : Nat)
    (h : ∀ j, a ≤ j → j < a + k → is_fold d e j = false) :
    (List.range' a k).filter (is_fold d e) = [] := by
  rw [List.filter_eq_nil_iff]
  intro j hj
  rw [List.mem_range'_1] at hj
  rw [h j hj.1 hj.2]
  simp

theorem is_fold_of_not_newline (d : List Nat) (e j : Nat) (h : rd d j ≠ 10) :
    is_fold d e j = false := by
  unfold is_fold
  simp [h]

theorem is_fold_of_end (d : List Nat) (e j : Nat) (h : e ≤ j + 1) : is_fold d e j = false := by
  unfold is_fold
  have : ¬ (j + 1 < e) := by omega
  simp [this]

theorem is_fold_at_newline (d : List Nat) (e p : Nat) (h1 : rd d p = 10) (h2 : p + 1 < e) :
    is_fold d e p = isblank (rd d (p + 1)) := by
  unfold is_fold
  simp [h1, h2]

/-- The loop of `fill_wrapped` appends to the array the fold newlines from
`ptr` to the end of the header region, in increasing order. -/
theorem fill_wrapped_loop_spec (d : List Nat) (size e : Nat) (he : e ≤ size) :
    ∀ (fuel ptr : Nat) (w : List Nat) (n : Nat), size - ptr < fuel →
      (fill_wrapped_loop d size e fuel ptr w n).1
        = w ++ (List.range' ptr (e - ptr)).filter (is_fold d e) := by
  intro fuel
  induction fuel with
  | zero => intro ptr w n h; omega
  | succ fuel ih =>
    intro ptr w n hf
    unfold fill_wrapped_loop
    cases hm : memchr d ptr 10 (size - ptr) with
    | none =>
      simp only
      rw [filter_is_fold_nil d e ptr (e - ptr) (fun j h1 h2 =>
        is_fold_of_not_newline d e j (memchr_none _ _ hm j h1 (by omega)))]
      simp
    | some p =>
      obtain ⟨h1, h2, h3, h4⟩ := memchr_some _ _ _ hm
      simp only
      by_cases hoff : p + 1 ≥ e
      · rw [if_pos hoff]
        rw [filter_is_fold_nil d e ptr (e - ptr) (fun j j1 j2 => by
          by_cases hjp : j < p
          · exact is_fold_of_not_newline d e j (h4 j j1 hjp)
          · exact is_fold_of_end d e j (by omega))]
        simp
      · rw [if_neg hoff]
        have hsplit : List.range' ptr (e - ptr)
            = List.range' ptr (p - ptr) ++ p :: List.range' (p + 1) (e - (p + 1)) := by
          have e1 : e - ptr = (e - p) + (p - ptr) := by omega
          have e2 : e - p = (e - (p + 1)) + 1 := by omega
          have e3 : ptr + (p - ptr) = p := by omega
          rw [e1, ← List.range'_append_1, e3, e2, List.range'_succ]
        have hfirst : (List.range' ptr (p - ptr)).filter (is_fold d e) = [] :=
          filter_is_fold_nil d e ptr (p - ptr) (fun j j1 j2 =>
            is_fold_of_not_newline d e j (h4 j j1 (by omega)))
        have hp : is_fold d e p = isblank (rd d (p + 1)) :=
          is_fold_at_newline d e p h3 (by omega)
        rw [hsplit, List.filter_append, hfirst, List.nil_append, List.filter_cons, hp]
        by_cases hb : isblank (rd d (p + 1)) = true
        · rw [if_neg (by simp [hb]), if_pos hb, ih (p + 1) _ _ (by omega)]
          simp
        · rw [if_pos (by simpa using hb), if_neg hb, ih (p + 1) _ _ (by omega)]

/-- The count kept by the loop of `fill_wrapped` is the length of the array,
as a `u_int`. -/
theorem fill_wrapped_loop_count (d : List Nat) (size e : Nat) :
    ∀ (fuel ptr : Nat) (w : List Nat) (n : Nat), n = w.length % 2 ^ 32 →
      (fill_wrapped_loop d size e fuel ptr w n).2
        = (fill_wrapped_loop d size e fuel ptr w n).1.length % 2 ^ 32 := by
  intro fuel
  induction fuel with
  | zero => intro ptr w n h; exact h
  | succ fuel ih =>
    intro ptr w n h
    unfold fill_wrapped_loop
    cases hm : memchr d ptr 10 (size - ptr) with
    | none => exact h
    | some p =>
      simp only
      split
      · exact h
      · split
        · exact ih _ _ _ h
        · apply ih
          rw [h, List.length_append, List.length_singleton, Nat.add_mod, Nat.mod_mod,
            ← Nat.add_mod]

theorem header_end_eq {m : mail} (h : m.wf) :
    (m.body = -1 → header_end m = m.size) ∧ (m.body ≠ -1 → (header_end m : Int) = m.body) := by
  obtain ⟨h1, h2, h3, h4⟩ := h
  unfold header_end
  constructor
  · intro hb; rw [if_pos hb]
  · intro hb
    rw [if_neg hb]
    rcases h4 with h4 | ⟨h5, h6⟩
    · contradiction
    · have hbs : m.body ≤ (SIZE_MAX : Nat) := by
        have : (m.size : Int) ≤ (SIZE_MAX : Nat) := by exact_mod_cast (by omega : m.size ≤ SIZE_MAX)
        omega
      exact to_size_eq h5 hbs

/-- C15: on a well-formed message without fold points, whose header region
ends at `e` (`body` if known, else the length) and has fewer than `2 ^ 32`
fold newlines (the range of the `u_int` count), `fill_wrapped` returns their
number and records exactly them: the offsets `i`, strictly increasing, with a
newline at `i`, `i + 1 < e` and a space or a tab at `i + 1`. -/
theorem fill_wrapped_records_folds (m : mail) (hwf : m.wf) (hw : m.wrapped = [])
    (hcount : (fold_newlines m.data (header_end m)).length < 2 ^ 32) :
    fill_wrapped m
        = .ret ((fold_newlines m.data (header_end m)).length,
            { m with wrapped := fold_newlines m.data (header_end m) }) ∧
      List.Pairwise (fun a b => a < b) (fold_newlines m.data (header_end m)) ∧
      (∀ i, i ∈ fold_newlines m.data (header_end m) ↔
        rd m.data i = 10 ∧ i + 1 < header_end m ∧
          (rd m.data (i + 1) = 32 ∨ rd m.data (i + 1) = 9)) ∧
      (m.body = -1 → header_end m = m.size) ∧
      (m.body ≠ -1 → (header_end m : Int) = m.body) := by
  have he := header_end_le hwf
  have hspec := fill_wrapped_loop_spec m.data m.size (header_end m) he (m.size + 1) 0 [] 0
    (by omega)
  have hcnt := fill_wrapped_loop_count m.data m.size (header_end m) (m.size + 1) 0 [] 0
    (by simp)
  have hlist : (fill_wrapped_loop m.data m.size (header_end m) (m.size + 1) 0 [] 0).1
      = fold_newlines m.data (header_end m) := by
    rw [hspec]
    unfold fold_newlines
    rw [List.range_eq_range']
    simp
  rw [hlist] at hcnt
  rw [Nat.mod_eq_of_lt hcount] at hcnt
  refine ⟨?_, ?_, ?_, header_end_eq hwf⟩
  · unfold fill_wrapped
    rw [if_neg (by simp [hw])]
    simp only
    rw [hlist, hcnt]
  · unfold fold_newlines
    exact List.Pairwise.filter _ (List.pairwise_lt_range _)
  · intro i
    unfold fold_newlines is_fold isblank
    rw [List.mem_filter, List.mem_range]
    simp only [Bool.and_eq_true, beq_iff_eq, decide_eq_true_eq, Bool.or_eq_true]
    constructor
    · rintro ⟨_, ⟨h1, h2⟩, h3⟩
      exact ⟨h1, h2, h3⟩
    · rintro ⟨h1, h2, h3⟩
      exact ⟨by omega, ⟨h1, h2⟩, h3⟩

/-- C15, instance: in `Subject: x`, `To:` folded onto a second line, blank
line, body (header region of 22 bytes), the one fold newline is at offset 15. -/
theorem fill_wrapped_records_folds_witness :
    fold_newlines (mail.mk (bytes "Subject: x\nTo: \n a@b\n\nbody") 26 0 26 22 []).data 22
      = [15] ∧
    fill_wrapped (mail.mk (bytes "Subject: x\nTo: \n a@b\n\nbody") 26 0 26 22 [])
      = .ret (1, mail.mk (bytes "Subject: x\nTo: \n a@b\n\nbody") 26 0 26 22 [15]) :=
  ⟨by decide,
    (fill_wrapped_records_folds (mail.mk (bytes "Subject: x\nTo: \n a@b\n\nbody") 26 0 26 22 [])
      (by decide) (by decide) (by decide)).1⟩

/-! ## The dotlock file when `openlock` fails -/

/-- When the dotlock file was created and `flock` or `fcntl` fails, `openlock`
returns -1 with the dotlock file removed and off the registry. -/
theorem openlock_lock_failure_cleans (w : world) (a : answers) (path : List Nat)
    (locks : lockset) (fd e : Nat) (hd : locks.dotlock = true)
    (hf : path ++ bytes ".lock" ∉ w.files) (hr : path ++ bytes ".lock" ∉ w.registry)
    (hc : a.creat = none) (ho : a.open_path = .ok fd)
    (hfail : (locks.flock = true ∧ a.flock = some e) ∨
      ((locks.flock = false ∨ a.flock = none) ∧ locks.fcntl = true ∧ a.fcntl = some e)) :
    (openlock w a path locks).1 = -1 ∧
      path ++ bytes ".lock" ∉ (openlock w a path locks).2.files ∧
      path ++ bytes ".lock" ∉ (openlock w a path locks).2.registry := by
  unfold openlock
  simp only [hd, if_true, if_neg hf, hc, ho]
  rcases hfail with ⟨h1, h2⟩ | ⟨h1, h2, h3⟩
  · simp only [h1, if_true, h2]
    unfold openlock_error cleanup_deregister unlink close cleanup_register
    simp only [hd, if_true, List.erase_cons_head]
    exact ⟨trivial, hf, hr⟩
  · have hfl : (if locks.flock = true then a.flock else none) = none := by
      rcases h1 with h1 | h1
      · simp [h1]
      · simp [h1]
    simp only [hfl, h2, if_true, h3]
    unfold openlock_error cleanup_deregister unlink close cleanup_register
    simp only [hd, if_true, List.erase_cons_head]
    exact ⟨trivial, hf, hr⟩

/-- When the dotlock file was created and `open(path, flags, mode)` fails,
`openlock` returns -1 and the dotlock file is still there and registered. -/
theorem openlock_open_failure_keeps_dotlock (w : world) (a : answers) (path : List Nat)
    (locks : lockset) (e : Nat) (hd : locks.dotlock = true)
    (hf : path ++ bytes ".lock" ∉ w.files) (hc : a.creat = none)
    (ho : a.open_path = .error e) :
    (openlock w a path locks).1 = -1 ∧
      path ++ bytes ".lock" ∈ (openlock w a path locks).2.files ∧
      path ++ bytes ".lock" ∈ (openlock w a path locks).2.registry := by
  unfold openlock
  simp only [hd, if_true, if_neg hf, hc, ho]
  unfold cleanup_register
  simp

/-- C18: with the dotlock strategy, `mbox.lock` absent and created, and
`open("mbox", flags, mode)` failing with error 2, `openlock` returns -1 and
leaves `mbox.lock` in place and registered; when instead `flock` fails on the
opened file the dotlock file is removed and deregistered. -/
theorem openlock_leaves_dotlock_when_open_fails :
    openlock (world.mk [] [] [] 0) (answers.mk none (.error 2) none none) (bytes "mbox")
        (lockset.mk true true true)
      = (-1, world.mk [bytes "mbox.lock"] [bytes "mbox.lock"] [] 2) ∧
    openlock (world.mk [] [] [] 0) (answers.mk none (.ok 3) (some 11) none) (bytes "mbox")
        (lockset.mk true true true)
      = (-1, world.mk [] [] [] 11) := by
  decide

end Fdm
